import Mathlib

/-!
Shallow embedding of `better_board_reconstruct.py`, the bitset
constraint-propagation-plus-backtracking solver that reconstructs a letter
grid from word paths and a dictionary.

Conventions of the embedding:
* Python arbitrary-precision ints used as bitsets become `Nat` with the
  bitwise operations `&&&`, `|||`, `^^^`, `<<<`.
* A dictionary word is a `List Nat` of letter codes, the code of a character
  `ch` being `ord(ch) - 65` (so `A` is `0`, ..., `Z` is `25`; a word that
  passed Python's `isalpha` filter but contains a non-ASCII letter after
  uppercasing yields a code `≥ 26`).
* The dictionary `words_by_len` becomes a function `D : Nat → List Word`;
  a length absent from the Python dict is a length mapped to `[]`.
  The word index `index[L][pos][letter]` and `all_mask[L]` are the derived
  functions `letterBits (D L) pos letter` and `allMask (D L)`.
* In-place mutation of the `domains` / `path_cands` lists becomes explicit
  state passing; `return False` paths become `Option.none`.
* The unbounded `while changed` loop of `propagate` and the unbounded
  recursion of `solve` are modelled with an explicit fuel parameter
  (Python's recursion is likewise finite in practice); a sufficient fuel
  for `propagate` is computed and proved below, while `solve` is genuinely
  partial on some inputs and keeps its fuel visible.
-/

namespace Boggle

/-- A dictionary word as its list of letter codes (`ord(ch) - 65`). -/
abbrev Word := List Nat

/-- Source: `ALL = (1 << 26) - 1`, the 26-letter domain bitmask. -/
def ALL : Nat := (1 <<< 26) - 1

/-- Structural-recursion implementation of `iter_bits`; the first argument
is a recursion bound, `iterBits` below instantiates it with a value that is
always large enough. -/
def iterBitsF : Nat → Nat → List Nat
  | 0, _ => []
  | fuel + 1, x =>
      if x = 0 then []
      else (if x % 2 = 1 then [0] else []) ++ (iterBitsF fuel (x / 2)).map (· + 1)

/-- Source: `iter_bits(x)` — indices of 1-bits of `x` in increasing order
(the Python generator repeatedly extracts the lowest set bit). -/
def iterBits (x : Nat) : List Nat := iterBitsF x x

/-- Source: `bitcount(x)` — the number of 1-bits of `x`
(`bin(x).count("1")`). -/
def bitcount (x : Nat) : Nat := (iterBits x).length

/-- Structural-recursion implementation of Python `int.bit_length()`; the
first argument is a recursion bound. -/
def bitLengthF : Nat → Nat → Nat
  | 0, _ => 0
  | fuel + 1, x => if x = 0 then 0 else bitLengthF fuel (x / 2) + 1

/-- Python `int.bit_length()`: the position of the highest 1-bit plus one. -/
def bitLength (n : Nat) : Nat := bitLengthF n n

/-- Source: `mask_to_letter(mask) = chr(65 + (mask.bit_length() - 1))`. -/
def maskToLetter (mask : Nat) : Char := Char.ofNat (65 + (bitLength mask - 1))

/-- Source, inner loop of `build_index`: the bitset
`index[L][pos][letter]` of word IDs having `letter` at position `pos`;
`wid` is the ID of the first word of `ws`.  A letter code outside `0..25`
is never entered into the table (`if 0 <= li < 26`), which here is
reflected by the caller only consulting `letter < 26`. -/
def letterBitsAux (ws : List Word) (pos letter wid : Nat) : Nat :=
  match ws with
  | [] => 0
  | w :: rest =>
      (if w.getD pos 26 = letter then 1 <<< wid else 0) |||
        letterBitsAux rest pos letter (wid + 1)

/-- Source: `index[L][pos][letter]` built by `build_index` from the word
list of length `L`. -/
def letterBits (words : List Word) (pos letter : Nat) : Nat :=
  letterBitsAux words pos letter 0

/-- Source: `all_mask[L] = (1 << m) - 1` in `build_index`. -/
def allMask (words : List Word) : Nat := (1 <<< words.length) - 1

/-- Source: `all_mask.get(L, 0)` as used by `main` to seed `path_cands`
(`build_index` creates an entry only for a length with at least one word). -/
def allMaskOf (D : Nat → List Word) (L : Nat) : Nat :=
  if D L = [] then 0 else allMask (D L)

/-- Source: `allowed_words_for_pos(index_pos, allowed_letters_mask)` —
OR together the word-bitsets of every letter allowed by the mask. -/
def allowedWordsForPos (ipos : Nat → Nat) (allowedLettersMask : Nat) : Nat :=
  (iterBits allowedLettersMask).foldl (fun out letter => out ||| ipos letter) 0

/-- Source, loop body of `compute_path_candidates`: intersect `cand` with
the allowed words at each remaining position, returning `0` as soon as a
cell domain or the running candidate set is empty. -/
def cpcAux (wordsL : List Word) (cells : List Nat) (pos : Nat)
    (domains : List Nat) (cand : Nat) : Nat :=
  match cells with
  | [] => cand
  | cell :: rest =>
      let allowed := domains.getD cell 0
      if allowed = 0 then 0
      else
        let cand2 := cand &&& allowedWordsForPos (letterBits wordsL pos) allowed
        if cand2 = 0 then 0 else cpcAux wordsL rest (pos + 1) domains cand2

/-- Source: `compute_path_candidates(path_cells, L, domains, index, all_mask)`
— the bitset of candidate word IDs for one path, `0` if the length has no
dictionary words (`L not in index`). -/
def computePathCandidates (cells : List Nat) (L : Nat) (domains : List Nat)
    (D : Nat → List Word) : Nat :=
  if D L = [] then 0 else cpcAux (D L) cells 0 domains (allMask (D L))

/-- Source: `possible_letters_at_pos(cands, index_pos)` — the letters that
appear among the candidate words at one position. -/
def possibleLettersAtPos (cands : Nat) (ipos : Nat → Nat) : Nat :=
  (List.range 26).foldl
    (fun mask letter => if cands &&& ipos letter ≠ 0 then mask ||| (1 <<< letter) else mask) 0

/-- Source, first half of a `propagate` pass: recompute every path's
candidate set from the current cell domains, failing if any becomes empty
(`if new_pc == 0: return False`). -/
def computeAllCands (D : Nat → List Word) (paths : List (List Nat × Nat))
    (domains : List Nat) : Option (List Nat) :=
  match paths with
  | [] => some []
  | (cells, L) :: rest =>
      let c := computePathCandidates cells L domains D
      if c = 0 then none
      else (computeAllCands D rest domains).map (c :: ·)

/-- Source, inner loop of the second half of a `propagate` pass:
`new_domains[cell] &= possible_letters_at_pos(cands, idxL[pos])` over the
positions of one path, failing on an empty result. -/
def updateCells (wordsL : List Word) (cands : Nat) (cells : List Nat)
    (pos : Nat) (nd : List Nat) : Option (List Nat) :=
  match cells with
  | [] => some nd
  | cell :: rest =>
      let v := nd.getD cell 0 &&& possibleLettersAtPos cands (letterBits wordsL pos)
      if v = 0 then none else updateCells wordsL cands rest (pos + 1) (nd.set cell v)

/-- Source, second half of a `propagate` pass: fold `updateCells` over all
paths, starting from `new_domains = [ALL] * n_cells`. -/
def updateAllPaths (D : Nat → List Word) (paths : List (List Nat × Nat))
    (pcs : List Nat) (nd : List Nat) : Option (List Nat) :=
  match paths, pcs with
  | [], _ => some nd
  | (cells, L) :: prest, c :: crest =>
      match updateCells (D L) c cells 0 nd with
      | none => none
      | some nd2 => updateAllPaths D prest crest nd2
  | _ :: _, [] => none

/-- Source, third part of a `propagate` pass: `nd = new_domains[i] & domains[i]`
for every cell, failing if any intersection is empty. -/
def intersectDoms (nd d : List Nat) : Option (List Nat) :=
  match nd, d with
  | [], [] => some []
  | x :: xs, y :: ys =>
      let v := x &&& y
      if v = 0 then none else (intersectDoms xs ys).map (v :: ·)
  | _, _ => none

/-- One full pass of the `while changed` loop of `propagate`: tighten path
candidates from cell domains, then cell domains from path candidates.  The
returned Boolean is the `changed` flag of the source (some bitset was
reassigned a different value). -/
def propagatePass (D : Nat → List Word) (paths : List (List Nat × Nat))
    (n : Nat) (d pc : List Nat) : Option (List Nat × List Nat × Bool) :=
  match computeAllCands D paths d with
  | none => none
  | some pc2 =>
      match updateAllPaths D paths pc2 (List.replicate n ALL) with
      | none => none
      | some nd =>
          match intersectDoms nd d with
          | none => none
          | some d2 => some (d2, pc2, decide (pc2 ≠ pc) || decide (d2 ≠ d))

/-- Source: `propagate(...)` — iterate `propagatePass` until a pass reports
no change (`while changed`), with an explicit fuel bounding the number of
passes.  `none` = fuel exhausted, `some none` = contradiction
(`return False`), `some (some s)` = fixpoint reached (`return True`). -/
def propagateAux (D : Nat → List Word) (paths : List (List Nat × Nat))
    (n : Nat) : Nat → List Nat → List Nat → Option (Option (List Nat × List Nat))
  | 0, _, _ => none
  | fuel + 1, d, pc =>
      match propagatePass D paths n d pc with
      | none => some none
      | some (d2, pc2, changed) =>
          if changed then propagateAux D paths n fuel d2 pc2 else some (some (d2, pc2))

/-- Total number of 1-bits in a list of bitsets. -/
def bitsum (l : List Nat) : Nat := (l.map bitcount).sum

/-- Fuel that is proved below to always suffice for the fixpoint loop of
`propagate`: one normalizing pass, then at most one pass per remaining bit. -/
def propFuel (D : Nat → List Word) (paths : List (List Nat × Nat))
    (d : List Nat) : Nat :=
  bitsum d + (paths.map (fun p => (D p.2).length)).sum + 2

/-- Source: `propagate(domains, path_cands, paths, index, all_mask, n_cells)`
run to its fixpoint (the fuel `propFuel` is proved sufficient below, so the
`.getD none` never fires on the out-of-fuel marker). -/
def propagate (D : Nat → List Word) (paths : List (List Nat × Nat))
    (n : Nat) (d pc : List Nat) : Option (List Nat × List Nat) :=
  (propagateAux D paths n (propFuel D paths d) d pc).getD none

/-- Source: `solved(domains)` — every cell domain has at most one bit
(`d & (d - 1)` falsy). -/
def solved (domains : List Nat) : Bool :=
  domains.all (fun d => d &&& (d - 1) = 0)

/-- Source, loop of `choose_branch_path`: fold over the candidate sets with
the running `best` / `best_cnt` pair (`best_cnt` starts at `10**9`). -/
def chooseAux (pcs : List Nat) (pid : Nat) (best : Option Nat) (bestCnt : Nat) :
    Option Nat :=
  match pcs with
  | [] => best
  | c :: rest =>
      let cnt := bitcount c
      if 1 < cnt ∧ cnt < bestCnt then chooseAux rest (pid + 1) (some pid) cnt
      else chooseAux rest (pid + 1) best bestCnt

/-- Source: `choose_branch_path(path_cands)` — path with fewest (but more
than one) candidates, first one found on ties. -/
def chooseBranchPath (pcs : List Nat) : Option Nat :=
  chooseAux pcs 0 none (10 ^ 9)

/-- Source, branch body of `solve`: force every cell of the path to the
single letter of the candidate word at its position, on the copy `d2`;
`none` models the `ok = False` / `continue` skip when the letter bit is
absent from the cell's current domain. -/
def forceCells (w : Word) (cells : List Nat) (pos : Nat) (d : List Nat) :
    Option (List Nat) :=
  match cells with
  | [] => some d
  | cell :: rest =>
      let letter := w.getD pos 26
      let mask := 1 <<< letter
      if d.getD cell 0 &&& mask = 0 then none
      else forceCells w rest (pos + 1) (d.set cell mask)

/-- Source, candidate loop of `solve` (`for wid in iter_bits(candidates)`):
try each word ID of the chosen path in turn on fresh copies of the parent's
state, returning the first recursive success; `rec` is the recursive call
to `solve` at the remaining fuel. -/
def tryCands (rec : List Nat → List Nat → Option (List Nat))
    (words : List Word) (cells : List Nat) (pid : Nat) (d pc : List Nat) :
    List Nat → Option (List Nat)
  | [] => none
  | wid :: rest =>
      match forceCells (words.getD wid []) cells 0 d with
      | none => tryCands rec words cells pid d pc rest
      | some d2 =>
          match rec d2 (pc.set pid (1 <<< wid)) with
          | some r => some r
          | none => tryCands rec words cells pid d pc rest

/-- Source: `solve(domains, path_cands, paths, index, all_mask, n_cells,
words_by_len)` — propagate to fixpoint, stop on a fully singleton board,
otherwise branch on the most constrained ambiguous path.  The fuel bounds
the recursion depth (the Python recursion is likewise finite or crashes). -/
def solveAux (D : Nat → List Word) (paths : List (List Nat × Nat)) (n : Nat) :
    Nat → List Nat → List Nat → Option (List Nat)
  | 0, _, _ => none
  | fuel + 1, d, pc =>
      match propagate D paths n d pc with
      | none => none
      | some (d2, pc2) =>
          if solved d2 then some d2
          else
            match chooseBranchPath pc2 with
            | none => none
            | some pid =>
                let p := paths.getD pid ([], 0)
                tryCands (solveAux D paths n fuel) (D p.2) p.1 pid d2 pc2
                  (iterBits (pc2.getD pid 0))

/-- The string a path spells on a fully singleton board: the letter code of
`domains[cell]` for each cell in path order (`mask.bit_length() - 1`, i.e.
`Nat.log2` for a one-bit mask). -/
def spelled (domains : List Nat) (cells : List Nat) : Word :=
  cells.map (fun c => bitLength (domains.getD c 0) - 1)

/-- An assignment of one letter code to every cell satisfies Soundness for
`paths` and `D`: every path spells a dictionary word of its length.
Consistency (overlapping paths agree on shared cells) is automatic because
the assignment is a function of the cell. -/
def soundAssign (A : Nat → Nat) (paths : List (List Nat × Nat))
    (D : Nat → List Word) : Prop :=
  ∀ p ∈ paths, ∃ w ∈ D p.2, w = p.1.map A

/-- Source, body of `load_dictionary`'s line loop: strip the line, drop it
unless it is nonempty and fully alphabetic, and uppercase it. -/
def normLine (l : List Char) : Option (List Char) :=
  let w := (l.dropWhile Char.isWhitespace).reverse.dropWhile Char.isWhitespace |>.reverse
  if w = [] ∨ ¬ w.all Char.isAlpha then none else some (w.map Char.toUpper)

/-- Source: `load_dictionary(max_len)` — `words_by_len[L]` as the list, in
file order, of normalized lines of length `L` within `1 ≤ L ≤ max_len`.
No deduplication is performed. -/
def loadDictionary (lines : List (List Char)) (maxLen : Nat) :
    Nat → List (List Char) :=
  fun L => (lines.filterMap normLine).filter
    (fun w => w.length = L ∧ 1 ≤ w.length ∧ w.length ≤ maxLen)

/-- Source: `load_paths()` — returns the raw coordinate paths with their
lengths, the inferred grid dimensions `(max_r + 1, max_c + 1)` and the
maximum path length.  Coordinates are signed; no bounds check of any kind
is performed (`max` ignores negative coordinates since `max_r`/`max_c`
start at `0`). -/
def loadPaths (data : List (List (Int × Int))) :
    List (List (Int × Int) × Nat) × Int × Int × Nat :=
  let raw := data.map (fun p => (p, p.length))
  let maxR := data.foldl (fun m p => p.foldl (fun m rc => max m rc.1) m) 0
  let maxC := data.foldl (fun m p => p.foldl (fun m rc => max m rc.2) m) 0
  let maxLen := data.foldl (fun m p => max m p.length) 0
  (raw, maxR + 1, maxC + 1, maxLen)

/-- Source, `main`: `cell_ids = [r * ncols + c for (r, c) in coords]`. -/
def linearize (ncols : Int) (coords : List (Int × Int)) : List Int :=
  coords.map (fun rc => rc.1 * ncols + rc.2)

/-- Semantics of Python list indexing `l[i]` on a list of length `len`:
a valid nonnegative index, a valid negative index (counted from the end),
or an `IndexError`. -/
def pyIdx (len : Nat) (i : Int) : Option Nat :=
  if 0 ≤ i ∧ i < len then some i.toNat
  else if i < 0 ∧ -i ≤ len then some (len - (-i).toNat)
  else none

/-- Source: grid-printing loop of `main`, with the `"No solution found."`
signal on the left and the rendered rows on the right. -/
def mainOutput (D : Nat → List Word) (paths : List (List Nat × Nat))
    (nrows ncols fuel : Nat) : Sum String (List (List Char)) :=
  let n := nrows * ncols
  match solveAux D paths n fuel (List.replicate n ALL)
      (paths.map (fun p => allMaskOf D p.2)) with
  | none => Sum.inl "No solution found."
  | some sol =>
      Sum.inr ((List.range nrows).map (fun r =>
        (List.range ncols).map (fun c => maskToLetter (sol.getD (r * ncols + c) 0))))

/-! Bitset lemmas: `iterBits`, `bitcount`, mask inclusion. -/

/-- The mask `a` is a sub-bitset of `b` (`a & b == a`). -/
def submask (a b : Nat) : Prop := a &&& b = a

theorem iterBitsF_congr : ∀ (f g x : Nat), x ≤ f → x ≤ g → iterBitsF f x = iterBitsF g x := by
  intro f
  induction f with
  | zero =>
      intro g x hf _
      interval_cases x
      cases g <;> simp [iterBitsF]
  | succ f ih =>
      intro g x hf hg
      cases g with
      | zero =>
          interval_cases x
          simp [iterBitsF]
      | succ g =>
          by_cases hx : x = 0
          · simp [iterBitsF, hx]
          · have hx2 : x / 2 < x := Nat.div_lt_self (Nat.pos_of_ne_zero hx) one_lt_two
            have h1 : x / 2 ≤ f := by omega
            have h2 : x / 2 ≤ g := by omega
            simp only [iterBitsF, hx, if_false]
            rw [ih g (x / 2) h1 h2]

theorem iterBits_unfold (x : Nat) :
    iterBits x =
      if x = 0 then []
      else (if x % 2 = 1 then [0] else []) ++ (iterBits (x / 2)).map (· + 1) := by
  by_cases hx : x = 0
  · simp [iterBits, iterBitsF, hx]
  · obtain ⟨y, rfl⟩ : ∃ y, x = y + 1 := ⟨x - 1, by omega⟩
    have hx2 : (y + 1) / 2 ≤ y := by omega
    simp only [iterBits, iterBitsF, hx, if_false]
    rw [iterBitsF_congr y ((y + 1) / 2) ((y + 1) / 2) hx2 le_rfl]

theorem mem_iterBits (x : Nat) : ∀ i, i ∈ iterBits x ↔ x.testBit i = true := by
  induction x using Nat.strong_induction_on with
  | _ x ih =>
      intro i
      rw [iterBits_unfold]
      by_cases hx : x = 0
      · simp [hx, Nat.zero_testBit]
      · have hx2 : x / 2 < x := Nat.div_lt_self (Nat.pos_of_ne_zero hx) one_lt_two
        cases i with
        | zero =>
            have h2 : (0 : Nat) ∉ (iterBits (x / 2)).map (· + 1) := by
              simp
            rcases Nat.mod_two_eq_zero_or_one x with hpar | hpar <;>
              simp [hx, hpar, h2, Nat.testBit_zero]
        | succ j =>
            have h1 : j + 1 ∈ (if x % 2 = 1 then [0] else []) ↔ False := by
              rcases Nat.mod_two_eq_zero_or_one x with hpar | hpar <;> simp [hpar]
            simp only [hx, if_false, List.mem_append, h1, false_or, List.mem_map,
              Nat.testBit_succ]
            constructor
            · rintro ⟨j', hj', hj'e⟩
              have hjj : j' = j := by omega
              rw [← hjj]
              exact (ih (x / 2) hx2 j').mp hj'
            · intro h
              exact ⟨j, (ih (x / 2) hx2 j).mpr h, rfl⟩

theorem iterBits_sorted (x : Nat) : List.Sorted (· < ·) (iterBits x) := by
  induction x using Nat.strong_induction_on with
  | _ x ih =>
      rw [iterBits_unfold]
      by_cases hx : x = 0
      · simp [hx]
      · have hx2 : x / 2 < x := Nat.div_lt_self (Nat.pos_of_ne_zero hx) one_lt_two
        have hmap : List.Sorted (· < ·) ((iterBits (x / 2)).map (· + 1)) := by
          refine List.Pairwise.map _ (fun a b hab => by omega) (ih (x / 2) hx2)
        rcases Nat.mod_two_eq_zero_or_one x with hpar | hpar
        · simp [hx, hpar, hmap]
        · simp only [hx, if_false, hpar, if_true, List.singleton_append]
          refine List.Pairwise.cons (fun b hb => ?_) hmap
          simp only [List.mem_map] at hb
          obtain ⟨b', _, rfl⟩ := hb
          omega

theorem iterBits_nodup (x : Nat) : (iterBits x).Nodup :=
  (iterBits_sorted x).nodup

theorem iterBits_eq_nil_iff (x : Nat) : iterBits x = [] ↔ x = 0 := by
  constructor
  · intro h
    apply Nat.eq_of_testBit_eq
    intro i
    rw [Nat.zero_testBit]
    by_contra hne
    have : i ∈ iterBits x := (mem_iterBits x i).mpr (by revert hne; cases x.testBit i <;> simp)
    rw [h] at this
    exact absurd this (List.not_mem_nil i)
  · intro h
    simp [h, iterBits_unfold]

theorem exists_testBit_of_ne_zero {x : Nat} (hx : x ≠ 0) : ∃ i, x.testBit i = true := by
  have hne : iterBits x ≠ [] := fun h => hx ((iterBits_eq_nil_iff x).mp h)
  obtain ⟨i, hi⟩ := List.exists_mem_of_ne_nil _ hne
  exact ⟨i, (mem_iterBits x i).mp hi⟩

theorem testBit_lt_of_testBit {x i : Nat} (h : x.testBit i = true) : i < x := by
  have h1 : 2 ^ i ≤ x := Nat.testBit_implies_ge h
  have h2 : i < 2 ^ i := Nat.lt_two_pow i
  omega

/-- The 1-bit positions of `x` as a finite set. -/
def bitsOf (x : Nat) : Finset ℕ := (Finset.range x).filter (x.testBit ·)

theorem mem_bitsOf (x i : Nat) : i ∈ bitsOf x ↔ x.testBit i = true := by
  unfold bitsOf
  simp only [Finset.mem_filter, Finset.mem_range]
  exact ⟨fun h => h.2, fun h => ⟨testBit_lt_of_testBit h, h⟩⟩

theorem bitcount_eq_card (x : Nat) : bitcount x = (bitsOf x).card := by
  have hnd := iterBits_nodup x
  have : (iterBits x).toFinset = bitsOf x := by
    ext i
    rw [List.mem_toFinset, mem_iterBits, mem_bitsOf]
  rw [bitcount, ← List.toFinset_card_of_nodup hnd, this]

theorem bitsOf_inj {a b : Nat} (h : bitsOf a = bitsOf b) : a = b := by
  apply Nat.eq_of_testBit_eq
  intro i
  have := congrArg (i ∈ ·) h
  simp only [mem_bitsOf] at this
  by_cases ha : a.testBit i = true
  · simp only [ha]
    exact (by simpa [ha] using this.symm ▸ ha : b.testBit i = true).symm ▸ rfl
  · have hb : ¬ b.testBit i = true := fun hb => ha (by simp [this, hb])
    revert ha hb
    cases a.testBit i <;> cases b.testBit i <;> simp

theorem submask_iff {a b : Nat} :
    submask a b ↔ ∀ i, a.testBit i = true → b.testBit i = true := by
  constructor
  · intro h i hi
    have := congrArg (Nat.testBit · i) h
    simp only [Nat.testBit_and, hi, Bool.true_and] at this
    exact this
  · intro h
    apply Nat.eq_of_testBit_eq
    intro i
    rw [Nat.testBit_and]
    by_cases ha : a.testBit i = true
    · simp [ha, h i ha]
    · revert ha
      cases a.testBit i <;> simp

theorem submask_refl (a : Nat) : submask a a := by
  rw [submask_iff]
  exact fun _ h => h

theorem submask_trans {a b c : Nat} (h1 : submask a b) (h2 : submask b c) : submask a c := by
  rw [submask_iff] at *
  exact fun i hi => h2 i (h1 i hi)

theorem submask_and_left (a b : Nat) : submask (a &&& b) a := by
  rw [submask_iff]
  intro i hi
  rw [Nat.testBit_and] at hi
  exact (Bool.and_eq_true _ _).mp hi |>.1

theorem submask_and_right (a b : Nat) : submask (a &&& b) b := by
  rw [submask_iff]
  intro i hi
  rw [Nat.testBit_and] at hi
  exact (Bool.and_eq_true _ _).mp hi |>.2

theorem submask_zero (b : Nat) : submask 0 b := by
  rw [submask_iff]
  intro i hi
  rw [Nat.zero_testBit] at hi
  exact absurd hi (by simp)

theorem bitsOf_subset_of_submask {a b : Nat} (h : submask a b) : bitsOf a ⊆ bitsOf b := by
  intro i hi
  rw [mem_bitsOf] at *
  exact (submask_iff.mp h) i hi

theorem bitcount_le_of_submask {a b : Nat} (h : submask a b) : bitcount a ≤ bitcount b := by
  rw [bitcount_eq_card, bitcount_eq_card]
  exact Finset.card_le_card (bitsOf_subset_of_submask h)

theorem bitcount_lt_of_submask_ne {a b : Nat} (h : submask a b) (hne : a ≠ b) :
    bitcount a < bitcount b := by
  rw [bitcount_eq_card, bitcount_eq_card]
  refine Finset.card_lt_card ⟨bitsOf_subset_of_submask h, fun hsub => ?_⟩
  exact hne (bitsOf_inj (le_antisymm (bitsOf_subset_of_submask h) hsub))

theorem testBit_one_shiftLeft (k i : Nat) : (1 <<< k).testBit i = decide (k = i) := by
  rw [Nat.shiftLeft_eq, one_mul]
  exact Nat.testBit_two_pow

theorem testBit_ALL (i : Nat) : ALL.testBit i = decide (i < 26) := by
  have : ALL = 2 ^ 26 - 1 := by decide
  rw [this]
  exact Nat.testBit_two_pow_sub_one 26 i

theorem bitcount_two_pow_sub_one (m : Nat) : bitcount (2 ^ m - 1) = m := by
  rw [bitcount_eq_card]
  have : bitsOf (2 ^ m - 1) = Finset.range m := by
    ext i
    rw [mem_bitsOf, Nat.testBit_two_pow_sub_one, Finset.mem_range]
    simp
  rw [this, Finset.card_range]

theorem bitcount_allMask (words : List Word) : bitcount (allMask words) = words.length := by
  rw [allMask, Nat.shiftLeft_eq, one_mul]
  exact bitcount_two_pow_sub_one words.length

theorem bitcount_two_pow (k : Nat) : bitcount (2 ^ k) = 1 := by
  rw [bitcount_eq_card]
  have : bitsOf (2 ^ k) = {k} := by
    ext i
    rw [mem_bitsOf, Nat.testBit_two_pow, Finset.mem_singleton]
    simp [eq_comm]
  rw [this, Finset.card_singleton]

/-! Characterizations of the word-index and candidate computations. -/

theorem letterBitsAux_testBit (pos letter : Nat) :
    ∀ (ws : List Word) (k i : Nat),
      (letterBitsAux ws pos letter k).testBit i = true ↔
        ∃ j, j < ws.length ∧ i = k + j ∧ (ws.getD j []).getD pos 26 = letter := by
  intro ws
  induction ws with
  | nil =>
      intro k i
      simp [letterBitsAux, Nat.zero_testBit]
  | cons w rest ih =>
      intro k i
      simp only [letterBitsAux, Nat.testBit_or]
      by_cases hc : w.getD pos 26 = letter
      · simp only [hc, if_true, testBit_one_shiftLeft, Bool.or_eq_true, decide_eq_true_eq,
          ih (k + 1) i]
        constructor
        · rintro (rfl | ⟨j, hj, rfl, hw⟩)
          · exact ⟨0, by simp, by omega, by simpa using hc⟩
          · exact ⟨j + 1, by simpa using hj, by omega, by simpa using hw⟩
        · rintro ⟨j, hj, rfl, hw⟩
          cases j with
          | zero => exact Or.inl (by omega)
          | succ j' =>
              refine Or.inr ⟨j', by simpa using hj, by omega, by simpa using hw⟩
      · simp only [hc, if_false, Nat.zero_testBit, Bool.false_or, ih (k + 1) i]
        constructor
        · rintro ⟨j, hj, rfl, hw⟩
          exact ⟨j + 1, by simpa using hj, by omega, by simpa using hw⟩
        · rintro ⟨j, hj, rfl, hw⟩
          cases j with
          | zero =>
              exact absurd (by simpa using hw) hc
          | succ j' =>
              refine ⟨j', by simpa using hj, by omega, by simpa using hw⟩

theorem letterBits_testBit (ws : List Word) (pos letter i : Nat) :
    (letterBits ws pos letter).testBit i = true ↔
      i < ws.length ∧ (ws.getD i []).getD pos 26 = letter := by
  rw [letterBits, letterBitsAux_testBit]
  constructor
  · rintro ⟨j, hj, hij, hw⟩
    obtain rfl : j = i := by omega
    exact ⟨hj, hw⟩
  · rintro ⟨hi, hw⟩
    exact ⟨i, hi, by omega, hw⟩

theorem foldl_or_testBit (ipos : Nat → Nat) :
    ∀ (ls : List Nat) (acc w : Nat),
      (ls.foldl (fun out letter => out ||| ipos letter) acc).testBit w = true ↔
        acc.testBit w = true ∨ ∃ l ∈ ls, (ipos l).testBit w = true := by
  intro ls
  induction ls with
  | nil => simp
  | cons a rest ih =>
      intro acc w
      simp only [List.foldl_cons, ih, Nat.testBit_or, Bool.or_eq_true, List.mem_cons]
      constructor
      · rintro (( h | h) | ⟨l, hl, h⟩)
        · exact Or.inl h
        · exact Or.inr ⟨a, Or.inl rfl, h⟩
        · exact Or.inr ⟨l, Or.inr hl, h⟩
      · rintro (h | ⟨l, (rfl | hl), h⟩)
        · exact Or.inl (Or.inl h)
        · exact Or.inl (Or.inr h)
        · exact Or.inr ⟨l, hl, h⟩

theorem allowedWordsForPos_testBit (ipos : Nat → Nat) (mask w : Nat) :
    (allowedWordsForPos ipos mask).testBit w = true ↔
      ∃ l, mask.testBit l = true ∧ (ipos l).testBit w = true := by
  rw [allowedWordsForPos, foldl_or_testBit]
  simp only [Nat.zero_testBit, Bool.false_eq_true, false_or]
  constructor
  · rintro ⟨l, hl, h⟩
    exact ⟨l, (mem_iterBits mask l).mp hl, h⟩
  · rintro ⟨l, hl, h⟩
    exact ⟨l, (mem_iterBits mask l).mpr hl, h⟩

theorem foldl_letters_testBit (cands : Nat) (ipos : Nat → Nat) :
    ∀ (ls : List Nat) (acc l : Nat),
      (ls.foldl (fun mask letter =>
          if cands &&& ipos letter ≠ 0 then mask ||| (1 <<< letter) else mask) acc).testBit l
          = true ↔
        acc.testBit l = true ∨ (l ∈ ls ∧ cands &&& ipos l ≠ 0) := by
  intro ls
  induction ls with
  | nil => simp
  | cons a rest ih =>
      intro acc l
      simp only [List.foldl_cons, List.mem_cons]
      by_cases hc : cands &&& ipos a ≠ 0
      · rw [if_pos hc]
        simp only [ih, Nat.testBit_or, Bool.or_eq_true, testBit_one_shiftLeft,
          decide_eq_true_eq]
        constructor
        · rintro ((h | rfl) | ⟨hl, hcl⟩)
          · exact Or.inl h
          · exact Or.inr ⟨Or.inl rfl, hc⟩
          · exact Or.inr ⟨Or.inr hl, hcl⟩
        · rintro (h | ⟨(rfl | hl), hcl⟩)
          · exact Or.inl (Or.inl h)
          · exact Or.inl (Or.inr rfl)
          · exact Or.inr ⟨hl, hcl⟩
      · rw [if_neg hc]
        simp only [ih]
        constructor
        · rintro (h | ⟨hl, hcl⟩)
          · exact Or.inl h
          · exact Or.inr ⟨Or.inr hl, hcl⟩
        · rintro (h | ⟨(rfl | hl), hcl⟩)
          · exact Or.inl h
          · exact absurd hcl hc
          · exact Or.inr ⟨hl, hcl⟩


theorem possibleLettersAtPos_testBit (cands : Nat) (ipos : Nat → Nat) (l : Nat) :
    (possibleLettersAtPos cands ipos).testBit l = true ↔
      l < 26 ∧ cands &&& ipos l ≠ 0 := by
  rw [possibleLettersAtPos, foldl_letters_testBit]
  simp [Nat.zero_testBit, List.mem_range]

theorem cpcAux_testBit (wordsL : List Word) (d : List Nat) :
    ∀ (cells : List Nat) (pos cand w : Nat),
      (cpcAux wordsL cells pos d cand).testBit w = true ↔
        cand.testBit w = true ∧ ∀ j, j < cells.length →
          w < wordsL.length ∧ ∃ l, (d.getD (cells.getD j 0) 0).testBit l = true ∧
            (wordsL.getD w []).getD (pos + j) 26 = l := by
  intro cells
  induction cells with
  | nil =>
      intro pos cand w
      simp [cpcAux]
  | cons cell rest ih =>
      intro pos cand w
      simp only [cpcAux]
      by_cases ha : d.getD cell 0 = 0
      · simp only [ha, if_true]
        constructor
        · intro h
          rw [Nat.zero_testBit] at h
          exact absurd h (by simp)
        · rintro ⟨-, hall⟩
          obtain ⟨-, l, hl, -⟩ := hall 0 (by simp)
          rw [List.getD_cons_zero, ha, Nat.zero_testBit] at hl
          exact absurd hl (by simp)
      · simp only [ha, if_false]
        set cand2 := cand &&& allowedWordsForPos (letterBits wordsL pos) (d.getD cell 0) with hc2
        have hc2bit : ∀ w', cand2.testBit w' = true ↔
            cand.testBit w' = true ∧ w' < wordsL.length ∧
              ∃ l, (d.getD cell 0).testBit l = true ∧ (wordsL.getD w' []).getD pos 26 = l := by
          intro w'
          rw [hc2, Nat.testBit_and, Bool.and_eq_true, allowedWordsForPos_testBit]
          constructor
          · rintro ⟨hcd, l, hl, hlb⟩
            rw [letterBits_testBit] at hlb
            exact ⟨hcd, hlb.1, l, hl, hlb.2⟩
          · rintro ⟨hcd, hw, l, hl, hlb⟩
            exact ⟨hcd, l, hl, (letterBits_testBit _ _ _ _).mpr ⟨hw, hlb⟩⟩
        by_cases hz : cand2 = 0
        · simp only [hz, if_true]
          constructor
          · intro h
            rw [Nat.zero_testBit] at h
            exact absurd h (by simp)
          · rintro ⟨hcd, hall⟩
            obtain ⟨hw, l, hl, hgl⟩ := hall 0 (by simp)
            rw [List.getD_cons_zero] at hl
            have : cand2.testBit w = true := (hc2bit w).mpr ⟨hcd, hw, l, hl, by simpa using hgl⟩
            rw [hz, Nat.zero_testBit] at this
            exact absurd this (by simp)
        · simp only [hz, if_false, ih (pos + 1) cand2 w]
          constructor
          · rintro ⟨hcd2, hall⟩
            obtain ⟨hcd, hw, l, hl, hgl⟩ := (hc2bit w).mp hcd2
            refine ⟨hcd, fun j hj => ?_⟩
            cases j with
            | zero => exact ⟨hw, l, by simpa using hl, by simpa using hgl⟩
            | succ j' =>
                obtain ⟨hw', l', hl', hgl'⟩ := hall j' (by simpa using hj)
                refine ⟨hw', l', by simpa using hl', ?_⟩
                have : pos + 1 + j' = pos + (j' + 1) := by omega
                rw [← this]
                simpa using hgl'
          · rintro ⟨hcd, hall⟩
            obtain ⟨hw0, l0, hl0, hgl0⟩ := hall 0 (by simp)
            refine ⟨(hc2bit w).mpr ⟨hcd, hw0, l0, by simpa using hl0, by simpa using hgl0⟩,
              fun j' hj' => ?_⟩
            obtain ⟨hw', l', hl', hgl'⟩ := hall (j' + 1) (by simpa using hj')
            refine ⟨hw', l', by simpa using hl', ?_⟩
            have : pos + 1 + j' = pos + (j' + 1) := by omega
            rw [this]
            simpa using hgl'

theorem cpc_testBit (cells : List Nat) (L : Nat) (d : List Nat)
    (D : Nat → List Word) (w : Nat) :
    (computePathCandidates cells L d D).testBit w = true ↔
      D L ≠ [] ∧ w < (D L).length ∧ ∀ j, j < cells.length →
        ∃ l, (d.getD (cells.getD j 0) 0).testBit l = true ∧
          ((D L).getD w []).getD j 26 = l := by
  rw [computePathCandidates]
  by_cases hL : D L = []
  · simp [hL, Nat.zero_testBit]
  · simp only [hL, if_false, cpcAux_testBit]
    have hall : (allMask (D L)).testBit w = true ↔ w < (D L).length := by
      rw [allMask, Nat.shiftLeft_eq, one_mul, Nat.testBit_two_pow_sub_one]
      simp
    constructor
    · rintro ⟨hm, hrest⟩
      refine ⟨hL, hall.mp hm, fun j hj => ?_⟩
      obtain ⟨-, l, hl, hgl⟩ := hrest j hj
      exact ⟨l, hl, by simpa using hgl⟩
    · rintro ⟨-, hw, hrest⟩
      refine ⟨hall.mpr hw, fun j hj => ?_⟩
      obtain ⟨l, hl, hgl⟩ := hrest j hj
      exact ⟨hw, l, hl, by simpa using hgl⟩

theorem cpc_submask_allMask (cells : List Nat) (L : Nat) (d : List Nat)
    (D : Nat → List Word) :
    submask (computePathCandidates cells L d D) (allMask (D L)) := by
  rw [submask_iff]
  intro w hw
  obtain ⟨-, hlen, -⟩ := (cpc_testBit cells L d D w).mp hw
  rw [allMask, Nat.shiftLeft_eq, one_mul, Nat.testBit_two_pow_sub_one]
  simpa using hlen

theorem cpc_mono (cells : List Nat) (L : Nat) (d1 d2 : List Nat)
    (D : Nat → List Word)
    (h : ∀ i, submask (d2.getD i 0) (d1.getD i 0)) :
    submask (computePathCandidates cells L d2 D) (computePathCandidates cells L d1 D) := by
  rw [submask_iff]
  intro w hw
  rw [cpc_testBit] at *
  obtain ⟨hL, hlen, hrest⟩ := hw
  refine ⟨hL, hlen, fun j hj => ?_⟩
  obtain ⟨l, hl, hgl⟩ := hrest j hj
  exact ⟨l, (submask_iff.mp (h (cells.getD j 0))) l hl, hgl⟩

/-! List helpers for the getD-based view of the mutable source lists. -/

theorem getD_set (l : List Nat) (i j v : Nat) :
    (l.set i v).getD j 0 = if i = j ∧ i < l.length then v else l.getD j 0 := by
  rw [List.getD_eq_getElem?_getD, List.getD_eq_getElem?_getD, List.getElem?_set]
  by_cases hij : i = j
  · subst hij
    by_cases hlen : i < l.length
    · simp [hlen]
    · simp [hlen, List.getElem?_eq_none (show l.length ≤ i by omega)]
  · simp [hij]

theorem getD_replicate (n a i : Nat) (h : i < n) :
    (List.replicate n a).getD i 0 = a := by
  rw [List.getD_eq_getElem?_getD, List.getElem?_replicate]
  simp [h]

theorem list_ext_getD (l1 l2 : List Nat) (h : l1.length = l2.length)
    (h2 : ∀ i, i < l1.length → l1.getD i 0 = l2.getD i 0) : l1 = l2 := by
  apply List.ext_getElem h
  intro i hi1 hi2
  have := h2 i hi1
  rwa [List.getD_eq_getElem?_getD, List.getD_eq_getElem?_getD, List.getElem?_eq_getElem hi1,
    List.getElem?_eq_getElem hi2] at this

theorem getD_eq_zero_of_le (l : List Nat) (i : Nat) (h : l.length ≤ i) :
    l.getD i 0 = 0 := by
  rw [List.getD_eq_getElem?_getD, List.getElem?_eq_none h]
  rfl

theorem testBit_ne_zero {x i : Nat} (h : x.testBit i = true) : x ≠ 0 := by
  intro hx
  rw [hx, Nat.zero_testBit] at h
  exact absurd h (by simp)

/-- Compatibility of a letter assignment with a domain list: every in-range
cell's domain bitset contains the assigned letter's bit. -/
def listCompat (A : Nat → Nat) (d : List Nat) : Prop :=
  ∀ i, i < d.length → (d.getD i 0).testBit (A i) = true

/-! Lemmas about the two halves of a propagation pass. -/

theorem computeAllCands_spec (D : Nat → List Word) (d : List Nat) :
    ∀ (paths : List (List Nat × Nat)) (pcs : List Nat),
      computeAllCands D paths d = some pcs →
        pcs.length = paths.length ∧ ∀ pid, pid < paths.length →
          pcs.getD pid 0 =
              computePathCandidates (paths.getD pid ([], 0)).1 (paths.getD pid ([], 0)).2 d D ∧
            pcs.getD pid 0 ≠ 0 := by
  intro paths
  induction paths with
  | nil =>
      intro pcs h
      simp only [computeAllCands] at h
      cases h
      simp
  | cons p rest ih =>
      intro pcs h
      obtain ⟨cells, L⟩ := p
      simp only [computeAllCands] at h
      by_cases hz : computePathCandidates cells L d D = 0
      · rw [if_pos hz] at h
        exact absurd h (by simp)
      · rw [if_neg hz] at h
        obtain ⟨pcs', hrec, rfl⟩ : ∃ pcs', computeAllCands D rest d = some pcs' ∧
            pcs = computePathCandidates cells L d D :: pcs' := by
          cases hrec : computeAllCands D rest d with
          | none => rw [hrec] at h; exact absurd h (by simp)
          | some pcs' =>
              rw [hrec] at h
              have h' : some (computePathCandidates cells L d D :: pcs') = some pcs := h
              cases h'
              exact ⟨pcs', rfl, rfl⟩
        obtain ⟨hlen, hget⟩ := ih pcs' hrec
        refine ⟨by simpa using hlen, fun pid hpid => ?_⟩
        cases pid with
        | zero => simpa using hz
        | succ pid' =>
            have := hget pid' (by simpa using hpid)
            simpa using this

theorem computeAllCands_total (D : Nat → List Word) (d : List Nat) :
    ∀ (paths : List (List Nat × Nat)),
      (∀ p ∈ paths, computePathCandidates p.1 p.2 d D ≠ 0) →
        ∃ pcs, computeAllCands D paths d = some pcs := by
  intro paths
  induction paths with
  | nil => exact fun _ => ⟨[], rfl⟩
  | cons p rest ih =>
      intro h
      obtain ⟨cells, L⟩ := p
      obtain ⟨pcs', hrec⟩ := ih (fun q hq => h q (List.mem_cons_of_mem _ hq))
      have hz : computePathCandidates cells L d D ≠ 0 := h (cells, L) (List.mem_cons_self _ _)
      refine ⟨computePathCandidates cells L d D :: pcs', ?_⟩
      simp only [computeAllCands]
      rw [if_neg hz, hrec]
      rfl

theorem updateCells_shrink (wl : List Word) (c : Nat) :
    ∀ (cells : List Nat) (pos : Nat) (nd nd2 : List Nat),
      updateCells wl c cells pos nd = some nd2 →
        nd2.length = nd.length ∧ ∀ i, submask (nd2.getD i 0) (nd.getD i 0) := by
  intro cells
  induction cells with
  | nil =>
      intro pos nd nd2 h
      simp only [updateCells] at h
      cases h
      exact ⟨rfl, fun i => submask_refl _⟩
  | cons cell rest ih =>
      intro pos nd nd2 h
      simp only [updateCells] at h
      by_cases hz : nd.getD cell 0 &&& possibleLettersAtPos c (letterBits wl pos) = 0
      · rw [if_pos hz] at h
        exact absurd h (by simp)
      · rw [if_neg hz] at h
        obtain ⟨hlen, hsub⟩ := ih (pos + 1) _ nd2 h
        rw [List.length_set] at hlen
        refine ⟨hlen, fun i => ?_⟩
        refine submask_trans (hsub i) ?_
        rw [getD_set]
        by_cases hceq : cell = i ∧ cell < nd.length
        · rw [if_pos hceq]
          rw [← hceq.1]
          exact submask_and_left _ _
        · rw [if_neg hceq]
          exact submask_refl _

theorem updateCells_bound (wl : List Word) (c : Nat) :
    ∀ (cells : List Nat) (pos : Nat) (nd nd2 : List Nat),
      updateCells wl c cells pos nd = some nd2 →
        ∀ j, j < cells.length →
          submask (nd2.getD (cells.getD j 0) 0)
            (possibleLettersAtPos c (letterBits wl (pos + j))) := by
  intro cells
  induction cells with
  | nil =>
      intro pos nd nd2 _ j hj
      exact absurd hj (by simp)
  | cons cell rest ih =>
      intro pos nd nd2 h j hj
      simp only [updateCells] at h
      by_cases hz : nd.getD cell 0 &&& possibleLettersAtPos c (letterBits wl pos) = 0
      · rw [if_pos hz] at h
        exact absurd h (by simp)
      · rw [if_neg hz] at h
        cases j with
        | zero =>
            have hcl : cell < nd.length := by
              by_contra hcl
              rw [getD_eq_zero_of_le nd cell (by omega)] at hz
              simp at hz
            obtain ⟨-, hsub⟩ := updateCells_shrink wl c rest (pos + 1) _ nd2 h
            have hstep := hsub cell
            rw [getD_set, if_pos ⟨rfl, hcl⟩] at hstep
            simpa using submask_trans hstep (submask_and_right _ _)
        | succ j' =>
            have := ih (pos + 1) _ nd2 h j' (by simpa using hj)
            have harith : pos + 1 + j' = pos + (j' + 1) := by omega
            rw [harith] at this
            simpa using this

theorem updateCells_compat (A : Nat → Nat) (wl : List Word) (c : Nat) :
    ∀ (cells : List Nat) (pos : Nat) (nd : List Nat),
      listCompat A nd →
      (∀ j, j < cells.length → cells.getD j 0 < nd.length ∧
        (possibleLettersAtPos c (letterBits wl (pos + j))).testBit (A (cells.getD j 0)) = true) →
      ∃ nd2, updateCells wl c cells pos nd = some nd2 ∧ listCompat A nd2 ∧
        nd2.length = nd.length := by
  intro cells
  induction cells with
  | nil =>
      intro pos nd hc _
      exact ⟨nd, rfl, hc, rfl⟩
  | cons cell rest ih =>
      intro pos nd hc hcells
      obtain ⟨hcl, hpl⟩ := hcells 0 (by simp)
      simp only [List.getD_cons_zero, Nat.add_zero] at hcl hpl
      have hvbit : (nd.getD cell 0 &&& possibleLettersAtPos c (letterBits wl pos)).testBit
          (A cell) = true := by
        rw [Nat.testBit_and, hc cell hcl, hpl]
        rfl
      have hz : nd.getD cell 0 &&& possibleLettersAtPos c (letterBits wl pos) ≠ 0 :=
        testBit_ne_zero hvbit
      have hcset : listCompat A (nd.set cell (nd.getD cell 0 &&&
          possibleLettersAtPos c (letterBits wl pos))) := by
        intro i hi
        rw [List.length_set] at hi
        rw [getD_set]
        by_cases hceq : cell = i ∧ cell < nd.length
        · rw [if_pos hceq, ← hceq.1]
          exact hvbit
        · rw [if_neg hceq]
          exact hc i hi
      obtain ⟨nd2, hrec, hc2, hlen2⟩ := ih (pos + 1) _ hcset (fun j hj => by
        obtain ⟨h1, h2⟩ := hcells (j + 1) (by simpa using hj)
        have harith : pos + (j + 1) = pos + 1 + j := by omega
        rw [harith] at h2
        simp only [List.getD_cons_succ] at h1 h2
        rw [List.length_set]
        exact ⟨h1, h2⟩)
      refine ⟨nd2, ?_, hc2, by rw [hlen2, List.length_set]⟩
      simp only [updateCells]
      rw [if_neg hz]
      exact hrec

theorem updateAllPaths_shrink (D : Nat → List Word) :
    ∀ (paths : List (List Nat × Nat)) (pcs nd nd2 : List Nat),
      updateAllPaths D paths pcs nd = some nd2 →
        nd2.length = nd.length ∧ ∀ i, submask (nd2.getD i 0) (nd.getD i 0) := by
  intro paths
  induction paths with
  | nil =>
      intro pcs nd nd2 h
      simp only [updateAllPaths] at h
      cases h
      exact ⟨rfl, fun i => submask_refl _⟩
  | cons p prest ih =>
      intro pcs nd nd2 h
      obtain ⟨cells, L⟩ := p
      cases pcs with
      | nil => exact absurd h (by simp [updateAllPaths])
      | cons c crest =>
          simp only [updateAllPaths] at h
          cases hstep : updateCells (D L) c cells 0 nd with
          | none => rw [hstep] at h; exact absurd h (by simp)
          | some nd' =>
              rw [hstep] at h
              obtain ⟨hlen1, hsub1⟩ := updateCells_shrink (D L) c cells 0 nd nd' hstep
              obtain ⟨hlen2, hsub2⟩ := ih crest nd' nd2 h
              exact ⟨hlen2.trans hlen1, fun i => submask_trans (hsub2 i) (hsub1 i)⟩

theorem updateAllPaths_bound (D : Nat → List Word) :
    ∀ (paths : List (List Nat × Nat)) (pcs nd nd2 : List Nat),
      updateAllPaths D paths pcs nd = some nd2 →
        ∀ pid, pid < paths.length → ∀ j, j < (paths.getD pid ([], 0)).1.length →
          submask (nd2.getD ((paths.getD pid ([], 0)).1.getD j 0) 0)
            (possibleLettersAtPos (pcs.getD pid 0)
              (letterBits (D (paths.getD pid ([], 0)).2) j)) := by
  intro paths
  induction paths with
  | nil =>
      intro pcs nd nd2 _ pid hpid
      exact absurd hpid (by simp)
  | cons p prest ih =>
      intro pcs nd nd2 h pid hpid j hj
      obtain ⟨cells, L⟩ := p
      cases pcs with
      | nil => exact absurd h (by simp [updateAllPaths])
      | cons c crest =>
          simp only [updateAllPaths] at h
          cases hstep : updateCells (D L) c cells 0 nd with
          | none => rw [hstep] at h; exact absurd h (by simp)
          | some nd' =>
              rw [hstep] at h
              cases pid with
              | zero =>
                  simp only [List.getD_cons_zero] at hj ⊢
                  have hb := updateCells_bound (D L) c cells 0 nd nd' hstep j hj
                  rw [Nat.zero_add] at hb
                  obtain ⟨-, hsub⟩ := updateAllPaths_shrink D prest crest nd' nd2 h
                  exact submask_trans (hsub _) hb
              | succ pid' =>
                  have := ih crest nd' nd2 h pid' (by simpa using hpid) j
                    (by simpa using hj)
                  simpa using this

theorem updateAllPaths_compat (A : Nat → Nat) (D : Nat → List Word) :
    ∀ (paths : List (List Nat × Nat)) (pcs nd : List Nat),
      listCompat A nd →
      pcs.length = paths.length →
      (∀ pid, pid < paths.length → ∀ j, j < (paths.getD pid ([], 0)).1.length →
        (paths.getD pid ([], 0)).1.getD j 0 < nd.length ∧
        (possibleLettersAtPos (pcs.getD pid 0)
            (letterBits (D (paths.getD pid ([], 0)).2) j)).testBit
          (A ((paths.getD pid ([], 0)).1.getD j 0)) = true) →
      ∃ nd2, updateAllPaths D paths pcs nd = some nd2 ∧ listCompat A nd2 ∧
        nd2.length = nd.length := by
  intro paths
  induction paths with
  | nil =>
      intro pcs nd hc _ _
      exact ⟨nd, rfl, hc, rfl⟩
  | cons p prest ih =>
      intro pcs nd hc hlen hall
      obtain ⟨cells, L⟩ := p
      cases pcs with
      | nil => exact absurd hlen (by simp)
      | cons c crest =>
          obtain ⟨nd', hstep, hc', hlen'⟩ := updateCells_compat A (D L) c cells 0 nd hc
            (fun j hj => by
              have := hall 0 (by simp) j (by simpa using hj)
              simpa using this)
          obtain ⟨nd2, hrec, hc2, hlen2⟩ := ih crest nd' hc' (by simpa using hlen)
            (fun pid hpid j hj => by
              have := hall (pid + 1) (by simpa using hpid) j (by simpa using hj)
              rw [hlen']
              simpa using this)
          refine ⟨nd2, ?_, hc2, hlen2.trans hlen'⟩
          simp only [updateAllPaths]
          rw [hstep]
          exact hrec

theorem intersectDoms_spec :
    ∀ (nd d d2 : List Nat), intersectDoms nd d = some d2 →
      d2.length = nd.length ∧ nd.length = d.length ∧
        ∀ i, i < nd.length →
          d2.getD i 0 = nd.getD i 0 &&& d.getD i 0 ∧ d2.getD i 0 ≠ 0 := by
  intro nd
  induction nd with
  | nil =>
      intro d d2 h
      cases d with
      | nil =>
          simp only [intersectDoms] at h
          cases h
          exact ⟨rfl, rfl, fun i hi => absurd hi (by simp)⟩
      | cons y ys => exact absurd h (by simp [intersectDoms])
  | cons x xs ih =>
      intro d d2 h
      cases d with
      | nil => exact absurd h (by simp [intersectDoms])
      | cons y ys =>
          simp only [intersectDoms] at h
          by_cases hz : x &&& y = 0
          · rw [if_pos hz] at h
            exact absurd h (by simp)
          · rw [if_neg hz] at h
            obtain ⟨d2', hrec, rfl⟩ : ∃ d2', intersectDoms xs ys = some d2' ∧
                d2 = (x &&& y) :: d2' := by
              cases hrec : intersectDoms xs ys with
              | none => rw [hrec] at h; exact absurd h (by simp)
              | some d2' =>
                  rw [hrec] at h
                  have h' : some ((x &&& y) :: d2') = some d2 := h
                  cases h'
                  exact ⟨d2', rfl, rfl⟩
            obtain ⟨hl1, hl2, hget⟩ := ih ys d2' hrec
            refine ⟨by simpa using hl1, by simpa using hl2, fun i hi => ?_⟩
            cases i with
            | zero => exact ⟨by simp, by simpa using hz⟩
            | succ i' =>
                have := hget i' (by simpa using hi)
                simpa using this

theorem intersectDoms_total :
    ∀ (nd d : List Nat), nd.length = d.length →
      (∀ i, i < nd.length → nd.getD i 0 &&& d.getD i 0 ≠ 0) →
      ∃ d2, intersectDoms nd d = some d2 := by
  intro nd
  induction nd with
  | nil =>
      intro d hlen _
      cases d with
      | nil => exact ⟨[], rfl⟩
      | cons y ys => exact absurd hlen (by simp)
  | cons x xs ih =>
      intro d hlen hall
      cases d with
      | nil => exact absurd hlen (by simp)
      | cons y ys =>
          have hz : x &&& y ≠ 0 := by simpa using hall 0 (by simp)
          obtain ⟨d2', hrec⟩ := ih ys (by simpa using hlen) (fun i hi => by
            have := hall (i + 1) (by simpa using hi)
            simpa using this)
          refine ⟨(x &&& y) :: d2', ?_⟩
          simp only [intersectDoms]
          rw [if_neg hz, hrec]
          rfl

theorem propagatePass_spec (D : Nat → List Word) (paths : List (List Nat × Nat))
    (n : Nat) (d pc d2 pc2 : List Nat) (ch : Bool)
    (h : propagatePass D paths n d pc = some (d2, pc2, ch)) :
    d.length = n ∧ d2.length = n ∧
    computeAllCands D paths d = some pc2 ∧
    (∀ i, submask (d2.getD i 0) (d.getD i 0)) ∧
    (∀ i, i < n → d2.getD i 0 ≠ 0 ∧ submask (d2.getD i 0) ALL) ∧
    (∀ pid, pid < paths.length → ∀ j, j < (paths.getD pid ([], 0)).1.length →
      submask (d2.getD ((paths.getD pid ([], 0)).1.getD j 0) 0)
        (possibleLettersAtPos (pc2.getD pid 0)
          (letterBits (D (paths.getD pid ([], 0)).2) j))) ∧
    (ch = false ↔ pc2 = pc ∧ d2 = d) := by
  simp only [propagatePass] at h
  cases hca : computeAllCands D paths d with
  | none => rw [hca] at h; exact absurd h (by simp)
  | some pcs =>
      rw [hca] at h
      dsimp only at h
      cases hup : updateAllPaths D paths pcs (List.replicate n ALL) with
      | none => rw [hup] at h; exact absurd h (by simp)
      | some nd =>
          rw [hup] at h
          dsimp only at h
          cases hint : intersectDoms nd d with
          | none => rw [hint] at h; exact absurd h (by simp)
          | some dres =>
              rw [hint] at h
              dsimp only at h
              have h' : some (dres, pcs, (decide (pcs ≠ pc) || decide (dres ≠ d)))
                  = some (d2, pc2, ch) := h
              obtain ⟨h1, h2, h3⟩ : dres = d2 ∧ pcs = pc2 ∧
                  (decide (pcs ≠ pc) || decide (dres ≠ d)) = ch := by
                simpa [Prod.ext_iff] using h'
              subst h1
              subst h2
              subst h3
              obtain ⟨hndlen, hndsub⟩ := updateAllPaths_shrink D paths pcs _ _ hup
              rw [List.length_replicate] at hndlen
              obtain ⟨hl1, hl2, hget⟩ := intersectDoms_spec nd d dres hint
              have hdlen : d.length = n := by omega
              have hd2len : dres.length = n := by omega
              refine ⟨hdlen, hd2len, rfl, ?_, ?_, ?_, ?_⟩
              · intro i
                by_cases hi : i < n
                · rw [(hget i (by omega)).1]
                  exact submask_and_right _ _
                · rw [getD_eq_zero_of_le dres i (by omega)]
                  exact submask_zero _
              · intro i hi
                refine ⟨(hget i (by omega)).2, ?_⟩
                rw [(hget i (by omega)).1]
                refine submask_trans (submask_and_left _ _) ?_
                refine submask_trans (hndsub i) ?_
                rw [getD_replicate n ALL i hi]
                exact submask_refl _
              · intro pid hpid j hj
                have hb := updateAllPaths_bound D paths pcs _ _ hup pid hpid j hj
                set cell := (paths.getD pid ([], 0)).1.getD j 0 with hcell
                by_cases hcl : cell < n
                · refine submask_trans ?_ hb
                  rw [(hget cell (by omega)).1]
                  exact submask_and_left _ _
                · rw [getD_eq_zero_of_le dres cell (by omega)]
                  exact submask_zero _
              · constructor
                · intro hch
                  have := Bool.or_eq_false_iff.mp hch
                  constructor
                  · by_contra hne
                    have := this.1
                    simp [hne] at this
                  · by_contra hne
                    have := this.2
                    simp [hne] at this
                · rintro ⟨rfl, rfl⟩
                  simp

theorem getD_mem_of_lt {α : Type} (l : List α) (j : Nat) (dflt : α)
    (h : j < l.length) : l.getD j dflt ∈ l := by
  rw [List.getD_eq_getElem?_getD, List.getElem?_eq_getElem h]
  exact List.getElem_mem h

theorem getD_map_lt (l : List Nat) (A : Nat → Nat) (j dflt : Nat)
    (h : j < l.length) : (l.map A).getD j dflt = A (l.getD j 0) := by
  rw [List.getD_eq_getElem?_getD, List.getD_eq_getElem?_getD]
  rw [List.getElem?_eq_getElem (by simpa using h), List.getElem?_eq_getElem h]
  simp

/-- Key preservation fact: a path whose cells are all compatible with the
assignment `A` keeps the word ID of the word `A` spells on it among its
computed candidates. -/
theorem cpc_contains_assign (cells : List Nat) (L : Nat) (d : List Nat)
    (D : Nat → List Word) (A : Nat → Nat) (wid : Nat)
    (hw : wid < (D L).length)
    (hweq : (D L).getD wid [] = cells.map A)
    (hcells : ∀ c ∈ cells, c < d.length)
    (hc : listCompat A d) :
    (computePathCandidates cells L d D).testBit wid = true := by
  rw [cpc_testBit]
  refine ⟨by intro hnil; rw [hnil] at hw; simp at hw, hw, fun j hj => ?_⟩
  refine ⟨A (cells.getD j 0), ?_, ?_⟩
  · exact hc (cells.getD j 0) (hcells _ (getD_mem_of_lt cells j 0 hj))
  · rw [hweq]
    exact getD_map_lt cells A j 26 hj

/-- One propagation pass never fails on a state compatible with a sound
assignment, and its output stays compatible: the propagation layer cannot
prune away any globally valid solution. -/
theorem propagatePass_compat (A : Nat → Nat) (D : Nat → List Word)
    (paths : List (List Nat × Nat)) (n : Nat) (d pc : List Nat)
    (hA26 : ∀ i, A i < 26)
    (hpaths : ∀ p ∈ paths, p.2 = p.1.length ∧ ∀ c ∈ p.1, c < n)
    (hsound : soundAssign A paths D)
    (hc : listCompat A d) (hdlen : d.length = n) :
    ∃ d2 pc2 ch, propagatePass D paths n d pc = some (d2, pc2, ch) ∧
      listCompat A d2 ∧ d2.length = n := by
  have hwid : ∀ p ∈ paths, ∃ wid, wid < (D p.2).length ∧
      (D p.2).getD wid [] = p.1.map A := by
    intro p hp
    obtain ⟨w, hwmem, hweq⟩ := hsound p hp
    obtain ⟨i, hi, hie⟩ := List.mem_iff_getElem.mp hwmem
    refine ⟨i, hi, ?_⟩
    rw [List.getD_eq_getElem?_getD, List.getElem?_eq_getElem hi]
    simpa using hie ▸ hweq
  have hcz : ∀ p ∈ paths, computePathCandidates p.1 p.2 d D ≠ 0 := by
    intro p hp
    obtain ⟨wid, hw, hweq⟩ := hwid p hp
    refine testBit_ne_zero (cpc_contains_assign p.1 p.2 d D A wid hw hweq ?_ hc)
    intro c hcmem
    rw [hdlen]
    exact (hpaths p hp).2 c hcmem
  obtain ⟨pcs, hca⟩ := computeAllCands_total D d paths hcz
  obtain ⟨hpcslen, hpcsget⟩ := computeAllCands_spec D d paths pcs hca
  have hcrep : listCompat A (List.replicate n ALL) := by
    intro i hi
    rw [List.length_replicate] at hi
    rw [getD_replicate n ALL i hi, testBit_ALL]
    simpa using hA26 i
  obtain ⟨nd, hup, hndc, hndlen⟩ := updateAllPaths_compat A D paths pcs
    (List.replicate n ALL) hcrep hpcslen (by
      intro pid hpid j hj
      have hpmem : paths.getD pid ([], 0) ∈ paths := getD_mem_of_lt paths pid ([], 0) hpid
      obtain ⟨wid, hw, hweq⟩ := hwid _ hpmem
      have hcellmem : (paths.getD pid ([], 0)).1.getD j 0 ∈ (paths.getD pid ([], 0)).1 :=
        getD_mem_of_lt _ j 0 hj
      have hcelllt : (paths.getD pid ([], 0)).1.getD j 0 < n :=
        (hpaths _ hpmem).2 _ hcellmem
      constructor
      · rw [List.length_replicate]
        exact hcelllt
      · rw [possibleLettersAtPos_testBit]
        refine ⟨hA26 _, ?_⟩
        have hbit1 : (pcs.getD pid 0).testBit wid = true := by
          rw [(hpcsget pid hpid).1]
          refine cpc_contains_assign _ _ d D A wid hw hweq ?_ hc
          intro c hcmem
          rw [hdlen]
          exact (hpaths _ hpmem).2 c hcmem
        have hbit2 : (letterBits (D (paths.getD pid ([], 0)).2) j
            (A ((paths.getD pid ([], 0)).1.getD j 0))).testBit wid = true := by
          rw [letterBits_testBit]
          refine ⟨hw, ?_⟩
          rw [hweq]
          exact getD_map_lt _ A j 26 hj
        intro hand
        have : ((pcs.getD pid 0) &&& (letterBits (D (paths.getD pid ([], 0)).2) j
            (A ((paths.getD pid ([], 0)).1.getD j 0)))).testBit wid = true := by
          rw [Nat.testBit_and, hbit1, hbit2]
          rfl
        rw [hand, Nat.zero_testBit] at this
        exact absurd this (by simp))
  rw [List.length_replicate] at hndlen
  obtain ⟨dres, hint⟩ := intersectDoms_total nd d (by omega) (by
    intro i hi
    rw [hndlen] at hi
    refine testBit_ne_zero (i := A i) ?_
    rw [Nat.testBit_and, hndc i (by omega), hc i (by omega)]
    rfl)
  refine ⟨dres, pcs, decide (pcs ≠ pc) || decide (dres ≠ d), ?_, ?_, ?_⟩
  · simp only [propagatePass]
    rw [hca]
    dsimp only
    rw [hup]
    dsimp only
    rw [hint]
  · obtain ⟨hl1, hl2, hget⟩ := intersectDoms_spec nd d dres hint
    intro i hi
    rw [(hget i (by omega)).1, Nat.testBit_and, hndc i (by omega), hc i (by omega)]
    rfl
  · obtain ⟨hl1, hl2, -⟩ := intersectDoms_spec nd d dres hint
    omega

/-! Termination of the propagation fixpoint loop. -/

theorem bitsum_cons (x : Nat) (xs : List Nat) :
    bitsum (x :: xs) = bitcount x + bitsum xs := by
  simp [bitsum]

theorem bitsum_le_of_pointwise :
    ∀ (l1 l2 : List Nat), l1.length = l2.length →
      (∀ i, submask (l1.getD i 0) (l2.getD i 0)) → bitsum l1 ≤ bitsum l2 := by
  intro l1
  induction l1 with
  | nil => intro l2 _ _; simp [bitsum]
  | cons x xs ih =>
      intro l2 hlen hsub
      cases l2 with
      | nil => exact absurd hlen (by simp)
      | cons y ys =>
          rw [bitsum_cons, bitsum_cons]
          have hhead : bitcount x ≤ bitcount y :=
            bitcount_le_of_submask (by simpa using hsub 0)
          have htail : bitsum xs ≤ bitsum ys :=
            ih ys (by simpa using hlen) (fun i => by simpa using hsub (i + 1))
          omega

theorem bitsum_lt_of_pointwise_ne :
    ∀ (l1 l2 : List Nat), l1.length = l2.length →
      (∀ i, submask (l1.getD i 0) (l2.getD i 0)) → l1 ≠ l2 → bitsum l1 < bitsum l2 := by
  intro l1
  induction l1 with
  | nil =>
      intro l2 hlen _ hne
      cases l2 with
      | nil => exact absurd rfl hne
      | cons y ys => exact absurd hlen (by simp)
  | cons x xs ih =>
      intro l2 hlen hsub hne
      cases l2 with
      | nil => exact absurd hlen (by simp)
      | cons y ys =>
          rw [bitsum_cons, bitsum_cons]
          have hhead : bitcount x ≤ bitcount y :=
            bitcount_le_of_submask (by simpa using hsub 0)
          have htail : bitsum xs ≤ bitsum ys :=
            bitsum_le_of_pointwise xs ys (by simpa using hlen)
              (fun i => by simpa using hsub (i + 1))
          by_cases hxy : x = y
          · subst hxy
            have hxs : xs ≠ ys := fun h => hne (by rw [h])
            have := ih ys (by simpa using hlen) (fun i => by simpa using hsub (i + 1)) hxs
            omega
          · have := bitcount_lt_of_submask_ne (by simpa using hsub 0) hxy
            omega

theorem cac_bitsum_le (D : Nat → List Word) (d : List Nat) :
    ∀ (paths : List (List Nat × Nat)) (pcs : List Nat),
      computeAllCands D paths d = some pcs →
        bitsum pcs ≤ (paths.map (fun p => (D p.2).length)).sum := by
  intro paths
  induction paths with
  | nil =>
      intro pcs h
      simp only [computeAllCands] at h
      cases h
      simp [bitsum]
  | cons p rest ih =>
      intro pcs h
      obtain ⟨cells, L⟩ := p
      simp only [computeAllCands] at h
      by_cases hz : computePathCandidates cells L d D = 0
      · rw [if_pos hz] at h
        exact absurd h (by simp)
      · rw [if_neg hz] at h
        cases hrec : computeAllCands D rest d with
        | none => rw [hrec] at h; exact absurd h (by simp)
        | some pcs' =>
            rw [hrec] at h
            have h' : some (computePathCandidates cells L d D :: pcs') = some pcs := h
            cases h'
            rw [bitsum_cons]
            have hhead : bitcount (computePathCandidates cells L d D) ≤ (D L).length := by
              have := bitcount_le_of_submask (cpc_submask_allMask cells L d D)
              rwa [bitcount_allMask] at this
            have htail := ih pcs' hrec
            simp only [List.map_cons, List.sum_cons]
            omega

theorem pc_pointwise_of_cac {D : Nat → List Word} {paths : List (List Nat × Nat)}
    {d d0 pc2 pc : List Nat}
    (hca2 : computeAllCands D paths d = some pc2)
    (hca0 : computeAllCands D paths d0 = some pc)
    (hsub : ∀ i, submask (d.getD i 0) (d0.getD i 0)) :
    pc2.length = pc.length ∧ ∀ i, submask (pc2.getD i 0) (pc.getD i 0) := by
  obtain ⟨hl2, hg2⟩ := computeAllCands_spec D d paths pc2 hca2
  obtain ⟨hl0, hg0⟩ := computeAllCands_spec D d0 paths pc hca0
  refine ⟨by omega, fun i => ?_⟩
  by_cases hi : i < paths.length
  · rw [(hg2 i hi).1, (hg0 i hi).1]
    exact cpc_mono _ _ d0 d D hsub
  · rw [getD_eq_zero_of_le pc2 i (by omega)]
    exact submask_zero _

theorem propagateAux_ne_none (D : Nat → List Word) (paths : List (List Nat × Nat))
    (n : Nat) :
    ∀ (fuel : Nat) (d pc d0 : List Nat),
      computeAllCands D paths d0 = some pc →
      (∀ i, submask (d.getD i 0) (d0.getD i 0)) →
      bitsum d + bitsum pc < fuel →
      propagateAux D paths n fuel d pc ≠ none := by
  intro fuel
  induction fuel with
  | zero => intro d pc d0 _ _ hb; omega
  | succ fuel ih =>
      intro d pc d0 hca0 hsub hb
      simp only [propagateAux]
      cases hpass : propagatePass D paths n d pc with
      | none => simp
      | some t =>
          obtain ⟨d2, pc2, ch⟩ := t
          obtain ⟨hdlen, hd2len, hca2, hdsub, -, -, hchiff⟩ :=
            propagatePass_spec D paths n d pc d2 pc2 ch hpass
          cases ch with
          | false => simp
          | true =>
              dsimp only
              rw [if_pos rfl]
              obtain ⟨hpclen, hpcsub⟩ := pc_pointwise_of_cac hca2 hca0 hsub
              have hbd2 : bitsum d2 ≤ bitsum d :=
                bitsum_le_of_pointwise d2 d (by omega) hdsub
              have hbpc2 : bitsum pc2 ≤ bitsum pc :=
                bitsum_le_of_pointwise pc2 pc hpclen hpcsub
              have hne : ¬(pc2 = pc ∧ d2 = d) := by
                intro hcon
                have := hchiff.mpr hcon
                simp at this
              have hstrict : bitsum d2 + bitsum pc2 < bitsum d + bitsum pc := by
                by_cases hpceq : pc2 = pc
                · have hdne : d2 ≠ d := fun hcon => hne ⟨hpceq, hcon⟩
                  have := bitsum_lt_of_pointwise_ne d2 d (by omega) hdsub hdne
                  omega
                · have := bitsum_lt_of_pointwise_ne pc2 pc hpclen hpcsub hpceq
                  omega
              exact ih d2 pc2 d hca2 hdsub (by omega)

theorem propagateAux_propFuel_ne_none (D : Nat → List Word)
    (paths : List (List Nat × Nat)) (n : Nat) (d pc : List Nat) :
    propagateAux D paths n (propFuel D paths d) d pc ≠ none := by
  have hunfold : propFuel D paths d =
      (bitsum d + (paths.map (fun p => (D p.2).length)).sum + 1) + 1 := by
    rw [propFuel]
  rw [hunfold]
  simp only [propagateAux]
  cases hpass : propagatePass D paths n d pc with
  | none => simp
  | some t =>
      obtain ⟨d2, pc2, ch⟩ := t
      obtain ⟨hdlen, hd2len, hca2, hdsub, -, -, -⟩ :=
        propagatePass_spec D paths n d pc d2 pc2 ch hpass
      cases ch with
      | false => simp
      | true =>
          dsimp only
          rw [if_pos rfl]
          have hbd2 : bitsum d2 ≤ bitsum d :=
            bitsum_le_of_pointwise d2 d (by omega) hdsub
          have hbpc2 := cac_bitsum_le D d paths pc2 hca2
          exact propagateAux_ne_none D paths n
            (bitsum d + (paths.map (fun p => (D p.2).length)).sum + 1)
            d2 pc2 d hca2 hdsub (by omega)

theorem propagateAux_fix (D : Nat → List Word) (paths : List (List Nat × Nat))
    (n : Nat) :
    ∀ (fuel : Nat) (d pc d2 pc2 : List Nat),
      propagateAux D paths n fuel d pc = some (some (d2, pc2)) →
        propagatePass D paths n d2 pc2 = some (d2, pc2, false) := by
  intro fuel
  induction fuel with
  | zero => intro d pc d2 pc2 h; exact absurd h (by simp [propagateAux])
  | succ fuel ih =>
      intro d pc d2 pc2 h
      simp only [propagateAux] at h
      cases hpass : propagatePass D paths n d pc with
      | none => rw [hpass] at h; exact absurd h (by simp)
      | some t =>
          obtain ⟨da, pca, ch⟩ := t
          rw [hpass] at h
          dsimp only at h
          cases ch with
          | true => exact ih da pca d2 pc2 (by simpa using h)
          | false =>
              have h' : some (some (da, pca)) = some (some (d2, pc2)) := by simpa using h
              obtain ⟨h1, h2⟩ : da = d2 ∧ pca = pc2 := by
                simpa [Prod.ext_iff] using h'
              subst h1
              subst h2
              obtain ⟨-, -, -, -, -, -, hchiff⟩ :=
                propagatePass_spec D paths n d pc da pca false hpass
              obtain ⟨hpceq, hdeq⟩ := hchiff.mp rfl
              rw [hpceq, hdeq]
              rw [hpceq, hdeq] at hpass
              exact hpass

theorem propagateAux_shrink (D : Nat → List Word) (paths : List (List Nat × Nat))
    (n : Nat) :
    ∀ (fuel : Nat) (d pc d2 pc2 : List Nat),
      propagateAux D paths n fuel d pc = some (some (d2, pc2)) →
        (∀ i, submask (d2.getD i 0) (d.getD i 0)) ∧ d2.length = n ∧ d.length = n := by
  intro fuel
  induction fuel with
  | zero => intro d pc d2 pc2 h; exact absurd h (by simp [propagateAux])
  | succ fuel ih =>
      intro d pc d2 pc2 h
      simp only [propagateAux] at h
      cases hpass : propagatePass D paths n d pc with
      | none => rw [hpass] at h; exact absurd h (by simp)
      | some t =>
          obtain ⟨da, pca, ch⟩ := t
          rw [hpass] at h
          dsimp only at h
          obtain ⟨hdlen, hdalen, -, hdsub, -, -, -⟩ :=
            propagatePass_spec D paths n d pc da pca ch hpass
          cases ch with
          | true =>
              obtain ⟨hsub2, hl2, hl1⟩ := ih da pca d2 pc2 (by simpa using h)
              exact ⟨fun i => submask_trans (hsub2 i) (hdsub i), hl2, hdlen⟩
          | false =>
              have h' : some (some (da, pca)) = some (some (d2, pc2)) := by simpa using h
              obtain ⟨h1, h2⟩ : da = d2 ∧ pca = pc2 := by
                simpa [Prod.ext_iff] using h'
              subst h1
              subst h2
              exact ⟨hdsub, hdalen, hdlen⟩

theorem propagate_some_spec (D : Nat → List Word) (paths : List (List Nat × Nat))
    (n : Nat) (d pc d2 pc2 : List Nat)
    (h : propagate D paths n d pc = some (d2, pc2)) :
    propagatePass D paths n d2 pc2 = some (d2, pc2, false) ∧
    (∀ i, submask (d2.getD i 0) (d.getD i 0)) ∧ d2.length = n ∧ d.length = n ∧
    computeAllCands D paths d2 = some pc2 ∧
    (∀ i, i < n → d2.getD i 0 ≠ 0 ∧ submask (d2.getD i 0) ALL) := by
  have haux : propagateAux D paths n (propFuel D paths d) d pc = some (some (d2, pc2)) := by
    cases haux : propagateAux D paths n (propFuel D paths d) d pc with
    | none => exact absurd haux (propagateAux_propFuel_ne_none D paths n d pc)
    | some y =>
        rw [propagate, haux] at h
        simp only [Option.getD_some] at h
        rw [h]
  have hfix := propagateAux_fix D paths n _ d pc d2 pc2 haux
  obtain ⟨hsub, hl2, hl1⟩ := propagateAux_shrink D paths n _ d pc d2 pc2 haux
  obtain ⟨-, -, hca, -, hnz, -, -⟩ :=
    propagatePass_spec D paths n d2 pc2 d2 pc2 false hfix
  exact ⟨hfix, hsub, hl2, hl1, hca, hnz⟩

theorem propagateAux_compat (A : Nat → Nat) (D : Nat → List Word)
    (paths : List (List Nat × Nat)) (n : Nat)
    (hA26 : ∀ i, A i < 26)
    (hpaths : ∀ p ∈ paths, p.2 = p.1.length ∧ ∀ c ∈ p.1, c < n)
    (hsound : soundAssign A paths D) :
    ∀ (fuel : Nat) (d pc : List Nat), listCompat A d → d.length = n →
      propagateAux D paths n fuel d pc ≠ some none ∧
      (∀ d2 pc2, propagateAux D paths n fuel d pc = some (some (d2, pc2)) →
        listCompat A d2) := by
  intro fuel
  induction fuel with
  | zero =>
      intro d pc _ _
      exact ⟨by simp [propagateAux], fun d2 pc2 h => absurd h (by simp [propagateAux])⟩
  | succ fuel ih =>
      intro d pc hc hdlen
      obtain ⟨d2', pc2', ch, hpass, hc2, hl2⟩ :=
        propagatePass_compat A D paths n d pc hA26 hpaths hsound hc hdlen
      simp only [propagateAux]
      rw [hpass]
      dsimp only
      cases ch with
      | true =>
          rw [if_pos rfl]
          exact ih d2' pc2' hc2 hl2
      | false =>
          refine ⟨by simp, fun d2 pc2 h => ?_⟩
          have h' : some (some (d2', pc2')) = some (some (d2, pc2)) := by simpa using h
          obtain ⟨h1, h2⟩ : d2' = d2 ∧ pc2' = pc2 := by
            simpa [Prod.ext_iff] using h'
          subst h1
          exact hc2

theorem propagate_compat (A : Nat → Nat) (D : Nat → List Word)
    (paths : List (List Nat × Nat)) (n : Nat) (d pc : List Nat)
    (hA26 : ∀ i, A i < 26)
    (hpaths : ∀ p ∈ paths, p.2 = p.1.length ∧ ∀ c ∈ p.1, c < n)
    (hsound : soundAssign A paths D)
    (hc : listCompat A d) (hdlen : d.length = n) :
    ∃ d2 pc2, propagate D paths n d pc = some (d2, pc2) ∧ listCompat A d2 := by
  obtain ⟨hnc, hcmp⟩ := propagateAux_compat A D paths n hA26 hpaths hsound
    (propFuel D paths d) d pc hc hdlen
  cases haux : propagateAux D paths n (propFuel D paths d) d pc with
  | none => exact absurd haux (propagateAux_propFuel_ne_none D paths n d pc)
  | some y =>
      cases y with
      | none => exact absurd haux hnc
      | some s =>
          obtain ⟨d2, pc2⟩ := s
          refine ⟨d2, pc2, ?_, hcmp d2 pc2 haux⟩
          rw [propagate, haux]
          rfl

/-! Lemmas about `solved`, single-bit masks and `chooseBranchPath`. -/

theorem solved_iff (d : List Nat) :
    solved d = true ↔ ∀ i, i < d.length → d.getD i 0 &&& (d.getD i 0 - 1) = 0 := by
  rw [solved, List.all_eq_true]
  constructor
  · intro h i hi
    have := h (d.getD i 0) (getD_mem_of_lt d i 0 hi)
    simpa using this
  · intro h x hx
    obtain ⟨i, hi, hie⟩ := List.mem_iff_getElem.mp hx
    have hg : d.getD i 0 = x := by
      rw [List.getD_eq_getElem?_getD, List.getElem?_eq_getElem hi, hie]
      rfl
    have := h i hi
    rw [hg] at this
    simpa using this

theorem eq_two_pow_of_and_pred :
    ∀ d : Nat, d ≠ 0 → d &&& (d - 1) = 0 → ∃ k, d = 2 ^ k := by
  intro d
  induction d using Nat.strong_induction_on with
  | _ d ih =>
      intro h0 hand
      rcases Nat.mod_two_eq_zero_or_one d with hpar | hpar
      · obtain ⟨m, rfl⟩ : ∃ m, d = 2 * m := ⟨d / 2, by omega⟩
        have hm0 : m ≠ 0 := by omega
        have heq : (2 * m) &&& (2 * m - 1) = 2 * (m &&& (m - 1)) := by
          apply Nat.eq_of_testBit_eq
          intro i
          cases i with
          | zero =>
              rw [Nat.testBit_and, Nat.testBit_zero, Nat.testBit_zero, Nat.testBit_zero]
              have h1 : (2 * m) % 2 = 0 := by omega
              have h2 : (2 * (m &&& (m - 1))) % 2 = 0 := by omega
              rw [h1, h2]
              simp
          | succ i =>
              rw [Nat.testBit_and, Nat.testBit_succ, Nat.testBit_succ, Nat.testBit_succ]
              have e1 : 2 * m / 2 = m := by omega
              have e2 : (2 * m - 1) / 2 = m - 1 := by omega
              have e3 : 2 * (m &&& (m - 1)) / 2 = m &&& (m - 1) := by omega
              rw [e1, e2, e3, ← Nat.testBit_and]
        rw [heq] at hand
        have hms : m &&& (m - 1) = 0 := by omega
        obtain ⟨k, hk⟩ := ih m (by omega) hm0 hms
        exact ⟨k + 1, by rw [hk, pow_succ]; ring⟩
      · obtain ⟨m, rfl⟩ : ∃ m, d = 2 * m + 1 := ⟨d / 2, by omega⟩
        have hsub : 2 * m + 1 - 1 = 2 * m := by omega
        rw [hsub] at hand
        have heq : (2 * m + 1) &&& (2 * m) = 2 * m := by
          apply Nat.eq_of_testBit_eq
          intro i
          cases i with
          | zero =>
              rw [Nat.testBit_and, Nat.testBit_zero, Nat.testBit_zero]
              have h1 : (2 * m + 1) % 2 = 1 := by omega
              have h2 : (2 * m) % 2 = 0 := by omega
              rw [h1, h2]
              simp
          | succ i =>
              rw [Nat.testBit_and, Nat.testBit_succ, Nat.testBit_succ]
              have e1 : (2 * m + 1) / 2 = m := by omega
              have e2 : 2 * m / 2 = m := by omega
              rw [e1, e2, Bool.and_self]
        rw [heq] at hand
        exact ⟨0, by omega⟩

theorem chooseAux_invariant (orig : List Nat) :
    ∀ (pcs : List Nat) (pid0 : Nat) (best : Option Nat) (bestCnt : Nat),
      orig.length = pid0 + pcs.length →
      (∀ j, j < pcs.length → orig.getD (pid0 + j) 0 = pcs.getD j 0) →
      bestCnt ≤ 10 ^ 9 →
      (best = none →
        (∀ q, q < pid0 → ¬(1 < bitcount (orig.getD q 0) ∧
          bitcount (orig.getD q 0) < bestCnt)) ∧ bestCnt = 10 ^ 9) →
      (∀ b, best = some b → b < pid0 ∧ bestCnt = bitcount (orig.getD b 0) ∧
        1 < bestCnt ∧ bestCnt < 10 ^ 9 ∧
        ∀ q, q < pid0 → 1 < bitcount (orig.getD q 0) →
          bestCnt ≤ bitcount (orig.getD q 0) ∧
          (bitcount (orig.getD q 0) = bestCnt → b ≤ q)) →
      ((chooseAux pcs pid0 best bestCnt = none →
        ∀ q, q < orig.length →
          ¬(1 < bitcount (orig.getD q 0) ∧ bitcount (orig.getD q 0) < 10 ^ 9)) ∧
      (∀ r, chooseAux pcs pid0 best bestCnt = some r →
        r < orig.length ∧ 1 < bitcount (orig.getD r 0) ∧
        bitcount (orig.getD r 0) < 10 ^ 9 ∧
        ∀ q, q < orig.length → 1 < bitcount (orig.getD q 0) →
          bitcount (orig.getD r 0) ≤ bitcount (orig.getD q 0) ∧
          (bitcount (orig.getD q 0) = bitcount (orig.getD r 0) → r ≤ q))) := by
  intro pcs
  induction pcs with
  | nil =>
      intro pid0 best bestCnt hlen _ hbc hnone hsome
      simp only [List.length_nil, Nat.add_zero] at hlen
      simp only [chooseAux]
      constructor
      · intro hr q hq
        obtain ⟨h1, h2⟩ := hnone hr
        have := h1 q (by omega)
        rw [h2] at this
        exact this
      · intro r hr
        obtain ⟨hblt, hbcnt, hb1, hb9, hall⟩ := hsome r hr
        refine ⟨by omega, by omega, by omega, fun q hq h1q => ?_⟩
        have := hall q (by omega) h1q
        omega
  | cons c rest ih =>
      intro pid0 best bestCnt hlen horig hbc hnone hsome
      have hc0 : orig.getD pid0 0 = c := by
        have := horig 0 (by simp)
        simpa using this
      have horig' : ∀ j, j < rest.length → orig.getD (pid0 + 1 + j) 0 = rest.getD j 0 := by
        intro j hj
        have := horig (j + 1) (by simpa using hj)
        have harith : pid0 + (j + 1) = pid0 + 1 + j := by omega
        rw [harith] at this
        simpa using this
      have hlen' : orig.length = pid0 + 1 + rest.length := by
        simp only [List.length_cons] at hlen
        omega
      simp only [chooseAux]
      by_cases hcond : 1 < bitcount c ∧ bitcount c < bestCnt
      · rw [if_pos hcond]
        refine ih (pid0 + 1) (some pid0) (bitcount c) hlen' horig' (by omega)
          (by intro hfalse; exact absurd hfalse (by simp)) ?_
        intro b hb
        have hbeq : b = pid0 := by
          have : some pid0 = some b := hb ▸ rfl
          simpa using this.symm
        subst hbeq
        refine ⟨by omega, by rw [hc0], hcond.1, by omega, fun q hq h1q => ?_⟩
        by_cases hqlt : q < b
        · cases hbest : best with
          | none =>
              obtain ⟨h1, h2⟩ := hnone hbest
              have := h1 q (by omega)
              rw [h2] at this
              have hge : 10 ^ 9 ≤ bitcount (orig.getD q 0) := by
                by_contra hcon
                exact this ⟨h1q, by omega⟩
              constructor
              · omega
              · intro heq
                omega
          | some b0 =>
              obtain ⟨hblt, hbcnt, hb1, hb9, hall⟩ := hsome b0 hbest
              have := hall q (by omega) h1q
              omega
        · constructor
          · have : q = b := by omega
            rw [this, hc0]
          · intro _
            omega
      · rw [if_neg hcond]
        refine ih (pid0 + 1) best bestCnt hlen' horig' hbc ?_ ?_
        · intro hbest
          obtain ⟨h1, h2⟩ := hnone hbest
          refine ⟨fun q hq => ?_, h2⟩
          by_cases hqlt : q < pid0
          · exact h1 q hqlt
          · have hqe : q = pid0 := by omega
            rw [hqe, hc0]
            rw [h2] at hcond ⊢
            exact hcond
        · intro b hb
          obtain ⟨hblt, hbcnt, hb1, hb9, hall⟩ := hsome b hb
          refine ⟨by omega, hbcnt, hb1, hb9, fun q hq h1q => ?_⟩
          by_cases hqlt : q < pid0
          · exact hall q hqlt h1q
          · have hqe : q = pid0 := by omega
            subst hqe
            rw [hc0] at h1q ⊢
            have hge : bestCnt ≤ bitcount c := by
              by_contra hcon
              exact hcond ⟨h1q, by omega⟩
            constructor
            · exact hge
            · intro heq
              omega

theorem chooseBranchPath_spec (pcs : List Nat) :
    (chooseBranchPath pcs = none →
      ∀ q, q < pcs.length →
        ¬(1 < bitcount (pcs.getD q 0) ∧ bitcount (pcs.getD q 0) < 10 ^ 9)) ∧
    (∀ r, chooseBranchPath pcs = some r →
      r < pcs.length ∧ 1 < bitcount (pcs.getD r 0) ∧
      bitcount (pcs.getD r 0) < 10 ^ 9 ∧
      ∀ q, q < pcs.length → 1 < bitcount (pcs.getD q 0) →
        bitcount (pcs.getD r 0) ≤ bitcount (pcs.getD q 0) ∧
        (bitcount (pcs.getD q 0) = bitcount (pcs.getD r 0) → r ≤ q)) := by
  have := chooseAux_invariant pcs pcs 0 none (10 ^ 9) (by simp)
    (fun j hj => by simp) le_rfl
    (fun _ => ⟨fun q hq => absurd hq (by omega), rfl⟩)
    (fun b hb => absurd hb (by simp))
  exact this

/-! Lemmas about `bitLength`, `forceCells`, `tryCands` and the `solve` spine. -/

theorem bitLengthF_congr : ∀ (f g x : Nat), x ≤ f → x ≤ g → bitLengthF f x = bitLengthF g x := by
  intro f
  induction f with
  | zero =>
      intro g x hf _
      interval_cases x
      cases g <;> simp [bitLengthF]
  | succ f ih =>
      intro g x hf hg
      cases g with
      | zero =>
          interval_cases x
          simp [bitLengthF]
      | succ g =>
          by_cases hx : x = 0
          · simp [bitLengthF, hx]
          · simp only [bitLengthF, hx, if_false]
            rw [ih g (x / 2) (by omega) (by omega)]

theorem bitLength_unfold (x : Nat) :
    bitLength x = if x = 0 then 0 else bitLength (x / 2) + 1 := by
  by_cases hx : x = 0
  · simp [bitLength, bitLengthF, hx]
  · obtain ⟨y, rfl⟩ : ∃ y, x = y + 1 := ⟨x - 1, by omega⟩
    simp only [bitLength, bitLengthF, hx, if_false]
    rw [bitLengthF_congr y ((y + 1) / 2) ((y + 1) / 2) (by omega) le_rfl]

theorem bitLength_two_pow (k : Nat) : bitLength (2 ^ k) = k + 1 := by
  induction k with
  | zero => rw [bitLength_unfold]; norm_num [bitLength, bitLengthF]
  | succ k ih =>
      rw [bitLength_unfold]
      have h0 : (2 : Nat) ^ (k + 1) ≠ 0 := by positivity
      rw [if_neg h0]
      have hdiv : 2 ^ (k + 1) / 2 = 2 ^ k := by
        rw [pow_succ]
        omega
      rw [hdiv, ih]

theorem forceCells_shrink (w : Word) :
    ∀ (cells : List Nat) (pos : Nat) (d d2 : List Nat),
      forceCells w cells pos d = some d2 →
        d2.length = d.length ∧ (∀ i, submask (d2.getD i 0) (d.getD i 0)) ∧
        (∀ i, i ∉ cells → d2.getD i 0 = d.getD i 0) := by
  intro cells
  induction cells with
  | nil =>
      intro pos d d2 h
      simp only [forceCells] at h
      cases h
      exact ⟨rfl, fun i => submask_refl _, fun i _ => rfl⟩
  | cons cell rest ih =>
      intro pos d d2 h
      simp only [forceCells] at h
      by_cases hz : d.getD cell 0 &&& (1 <<< w.getD pos 26) = 0
      · rw [if_pos hz] at h
        exact absurd h (by simp)
      · rw [if_neg hz] at h
        obtain ⟨hlen, hsub, hfr⟩ := ih (pos + 1) _ d2 h
        rw [List.length_set] at hlen
        have hbit : (d.getD cell 0).testBit (w.getD pos 26) = true := by
          obtain ⟨i, hi⟩ := exists_testBit_of_ne_zero hz
          rw [Nat.testBit_and, Bool.and_eq_true, testBit_one_shiftLeft] at hi
          obtain ⟨h1, h2⟩ := hi
          have h3 : w.getD pos 26 = i := by simpa using h2
          rw [h3]
          exact h1
        have hmasksub : submask (1 <<< w.getD pos 26) (d.getD cell 0) := by
          rw [submask_iff]
          intro i hi
          rw [testBit_one_shiftLeft] at hi
          have hieq : w.getD pos 26 = i := by simpa using hi
          rw [← hieq]
          exact hbit
        refine ⟨hlen, fun i => ?_, fun i hi => ?_⟩
        · refine submask_trans (hsub i) ?_
          rw [getD_set]
          by_cases hceq : cell = i ∧ cell < d.length
          · rw [if_pos hceq, ← hceq.1]
            exact hmasksub
          · rw [if_neg hceq]
            exact submask_refl _
        · have hne : i ∉ rest := fun hmem => hi (List.mem_cons_of_mem _ hmem)
          have hnec : cell ≠ i := fun hc => hi (hc ▸ List.mem_cons_self _ _)
          rw [hfr i hne, getD_set, if_neg (fun hc => hnec hc.1)]

theorem forceCells_compat (A : Nat → Nat) (w : Word) :
    ∀ (cells : List Nat) (pos : Nat) (d : List Nat),
      listCompat A d →
      (∀ c ∈ cells, c < d.length) →
      (∀ j, j < cells.length → w.getD (pos + j) 26 = A (cells.getD j 0)) →
      ∃ d2, forceCells w cells pos d = some d2 ∧ listCompat A d2 ∧
        d2.length = d.length ∧ (∀ c ∈ cells, d2.getD c 0 = 1 <<< A c) := by
  intro cells
  induction cells with
  | nil =>
      intro pos d hc _ _
      exact ⟨d, rfl, hc, rfl, fun c hc => absurd hc (by simp)⟩
  | cons cell rest ih =>
      intro pos d hc hlt hw
      have hcell : cell < d.length := hlt cell (List.mem_cons_self _ _)
      have hw0 : w.getD pos 26 = A cell := by
        have := hw 0 (by simp)
        simpa using this
      have hz : d.getD cell 0 &&& (1 <<< w.getD pos 26) ≠ 0 := by
        refine testBit_ne_zero (i := A cell) ?_
        rw [Nat.testBit_and, hc cell hcell, hw0, testBit_one_shiftLeft]
        simp
      have hcset : listCompat A (d.set cell (1 <<< w.getD pos 26)) := by
        intro i hi
        rw [List.length_set] at hi
        rw [getD_set]
        by_cases hceq : cell = i ∧ cell < d.length
        · rw [if_pos hceq, ← hceq.1, hw0, testBit_one_shiftLeft]
          simp
        · rw [if_neg hceq]
          exact hc i hi
      obtain ⟨d2, hrec, hc2, hlen2, hvals⟩ := ih (pos + 1) _ hcset
        (fun c hcm => by
          rw [List.length_set]
          exact hlt c (List.mem_cons_of_mem _ hcm))
        (fun j hj => by
          have := hw (j + 1) (by simpa using hj)
          have harith : pos + (j + 1) = pos + 1 + j := by omega
          rw [harith] at this
          simpa using this)
      refine ⟨d2, ?_, hc2, by rw [hlen2, List.length_set], ?_⟩
      · simp only [forceCells]
        rw [if_neg hz]
        exact hrec
      · intro c hcm
        rcases List.mem_cons.mp hcm with rfl | hcm'
        · by_cases hcr : c ∈ rest
          · rw [hvals c hcr]
          · obtain ⟨-, -, hfr⟩ := forceCells_shrink w rest (pos + 1) _ d2 hrec
            rw [hfr c hcr, getD_set, if_pos ⟨rfl, hcell⟩, hw0]
        · rw [hvals c hcm']

theorem tryCands_skip (rec : List Nat → List Nat → Option (List Nat))
    (words : List Word) (cells : List Nat) (pid : Nat) (d pc : List Nat)
    (wid : Nat) (rest : List Nat)
    (h : forceCells (words.getD wid []) cells 0 d = none ∨
      ∀ d2, forceCells (words.getD wid []) cells 0 d = some d2 →
        rec d2 (pc.set pid (1 <<< wid)) = none) :
    tryCands rec words cells pid d pc (wid :: rest) =
      tryCands rec words cells pid d pc rest := by
  simp only [tryCands]
  cases hforce : forceCells (words.getD wid []) cells 0 d with
  | none => rfl
  | some d2 =>
      dsimp only
      rcases h with hnone | hrec
      · rw [hforce] at hnone
        exact absurd hnone (by simp)
      · rw [hrec d2 hforce]

theorem tryCands_first_success (rec : List Nat → List Nat → Option (List Nat))
    (words : List Word) (cells : List Nat) (pid : Nat) (d pc : List Nat)
    (wid : Nat) (rest : List Nat) (d2 r : List Nat)
    (hforce : forceCells (words.getD wid []) cells 0 d = some d2)
    (hrec : rec d2 (pc.set pid (1 <<< wid)) = some r) :
    tryCands rec words cells pid d pc (wid :: rest) = some r := by
  simp only [tryCands]
  rw [hforce]
  dsimp only
  rw [hrec]

theorem tryCands_sound (rec : List Nat → List Nat → Option (List Nat))
    (words : List Word) (cells : List Nat) (pid : Nat) (d pc : List Nat) :
    ∀ (wids : List Nat) (r : List Nat),
      tryCands rec words cells pid d pc wids = some r →
        ∃ wid d2, wid ∈ wids ∧
          forceCells (words.getD wid []) cells 0 d = some d2 ∧
          rec d2 (pc.set pid (1 <<< wid)) = some r := by
  intro wids
  induction wids with
  | nil => intro r h; exact absurd h (by simp [tryCands])
  | cons wid rest ih =>
      intro r h
      simp only [tryCands] at h
      cases hforce : forceCells (words.getD wid []) cells 0 d with
      | none =>
          rw [hforce] at h
          obtain ⟨w', d2, hmem, hf, hr⟩ := ih r h
          exact ⟨w', d2, List.mem_cons_of_mem _ hmem, hf, hr⟩
      | some d2 =>
          rw [hforce] at h
          dsimp only at h
          cases hrec : rec d2 (pc.set pid (1 <<< wid)) with
          | none =>
              rw [hrec] at h
              obtain ⟨w', d2', hmem, hf, hr⟩ := ih r h
              exact ⟨w', d2', List.mem_cons_of_mem _ hmem, hf, hr⟩
          | some r' =>
              rw [hrec] at h
              have h' : some r' = some r := h
              cases h'
              exact ⟨wid, d2, List.mem_cons_self _ _, hforce, hrec⟩

theorem tryCands_success_of_mem (rec : List Nat → List Nat → Option (List Nat))
    (words : List Word) (cells : List Nat) (pid : Nat) (d pc : List Nat) :
    ∀ (wids : List Nat) (wid : Nat) (d2 r : List Nat),
      wid ∈ wids →
      forceCells (words.getD wid []) cells 0 d = some d2 →
      rec d2 (pc.set pid (1 <<< wid)) = some r →
      ∃ r', tryCands rec words cells pid d pc wids = some r' := by
  intro wids
  induction wids with
  | nil => intro wid d2 r hmem; exact absurd hmem (by simp)
  | cons w' rest ih =>
      intro wid d2 r hmem hforce hrec
      simp only [tryCands]
      cases hforce' : forceCells (words.getD w' []) cells 0 d with
      | none =>
          rcases List.mem_cons.mp hmem with rfl | hmem'
          · rw [hforce'] at hforce
            exact absurd hforce (by simp)
          · exact ih wid d2 r hmem' hforce hrec
      | some d2' =>
          dsimp only
          cases hrec' : rec d2' (pc.set pid (1 <<< w')) with
          | none =>
              rcases List.mem_cons.mp hmem with rfl | hmem'
              · rw [hforce'] at hforce
                have : d2' = d2 := by simpa using hforce
                subst this
                rw [hrec'] at hrec
                exact absurd hrec (by simp)
              · exact ih wid d2 r hmem' hforce hrec
          | some r' => exact ⟨r', rfl⟩

theorem solveAux_sound (D : Nat → List Word) (paths : List (List Nat × Nat))
    (n : Nat) :
    ∀ (fuel : Nat) (d pc r : List Nat),
      solveAux D paths n fuel d pc = some r →
        ∃ dIn pcIn pc2, propagate D paths n dIn pcIn = some (r, pc2) ∧
          solved r = true := by
  intro fuel
  induction fuel with
  | zero => intro d pc r h; exact absurd h (by simp [solveAux])
  | succ fuel ih =>
      intro d pc r h
      simp only [solveAux] at h
      cases hprop : propagate D paths n d pc with
      | none => rw [hprop] at h; exact absurd h (by simp)
      | some s =>
          obtain ⟨d2, pc2⟩ := s
          rw [hprop] at h
          dsimp only at h
          by_cases hsolved : solved d2 = true
          · rw [if_pos hsolved] at h
            have h' : some d2 = some r := h
            cases h'
            exact ⟨d, pc, pc2, hprop, hsolved⟩
          · rw [if_neg hsolved] at h
            cases hchoose : chooseBranchPath pc2 with
            | none => rw [hchoose] at h; exact absurd h (by simp)
            | some pid =>
                rw [hchoose] at h
                dsimp only at h
                obtain ⟨wid, d3, hmem, hforce, hrec⟩ :=
                  tryCands_sound _ _ _ _ _ _ _ r h
                exact ih _ _ r hrec

theorem getD_eq_get {α : Type} (l : List α) (dflt : α) (j : Nat) (h : j < l.length) :
    l.getD j dflt = l[j] := by
  rw [List.getD_eq_getElem?_getD, List.getElem?_eq_getElem h]
  rfl

/-- Every cell of a domain list returned by the solver is a single-letter
bitset, and every path spells a dictionary word; packaged reusable form. -/
theorem solveAux_full_sound (D : Nat → List Word) (paths : List (List Nat × Nat))
    (n fuel : Nat) (d pc dom : List Nat)
    (hD : ∀ L w, w ∈ D L → w.length = L)
    (hp : ∀ p ∈ paths, p.2 = p.1.length)
    (h : solveAux D paths n fuel d pc = some dom) :
    dom.length = n ∧
    (∀ i, i < n → ∃ k, k < 26 ∧ dom.getD i 0 = 2 ^ k) ∧
    (∀ p ∈ paths, ∃ w ∈ D p.2, w = spelled dom p.1) := by
  obtain ⟨dIn, pcIn, pc2, hprop, hsolved⟩ := solveAux_sound D paths n fuel d pc dom h
  obtain ⟨hfix, hsub, hl2, hl1, hca, hnz⟩ :=
    propagate_some_spec D paths n dIn pcIn dom pc2 hprop
  have hsingle : ∀ i, i < n → ∃ k, k < 26 ∧ dom.getD i 0 = 2 ^ k := by
    intro i hi
    obtain ⟨hne, hall⟩ := hnz i hi
    have hpred : dom.getD i 0 &&& (dom.getD i 0 - 1) = 0 :=
      (solved_iff dom).mp hsolved i (by omega)
    obtain ⟨k, hk⟩ := eq_two_pow_of_and_pred _ hne hpred
    refine ⟨k, ?_, hk⟩
    have hself : (dom.getD i 0).testBit k = true := by
      rw [hk, Nat.testBit_two_pow]
      simp
    have := (submask_iff.mp hall) k hself
    rw [testBit_ALL] at this
    simpa using this
  refine ⟨hl2, hsingle, fun p hpmem => ?_⟩
  obtain ⟨pid, hpid, hpe⟩ := List.mem_iff_getElem.mp hpmem
  have hpgetD : paths.getD pid ([], 0) = p := by
    rw [List.getD_eq_getElem?_getD, List.getElem?_eq_getElem hpid, hpe]
    rfl
  obtain ⟨hpcl, hpcget⟩ := computeAllCands_spec D dom paths pc2 hca
  obtain ⟨hpcv, hpcne⟩ := hpcget pid hpid
  rw [hpgetD] at hpcv
  rw [hpcv] at hpcne
  obtain ⟨wid, hwid⟩ := exists_testBit_of_ne_zero hpcne
  rw [cpc_testBit] at hwid
  obtain ⟨hDne, hwlen, hall⟩ := hwid
  refine ⟨(D p.2).getD wid [], getD_mem_of_lt _ wid [] hwlen, ?_⟩
  have hwordlen : ((D p.2).getD wid []).length = p.2 :=
    hD p.2 _ (getD_mem_of_lt _ wid [] hwlen)
  have hcellslen : p.2 = p.1.length := hp p hpmem
  apply List.ext_getElem (by rw [hwordlen, hcellslen]; simp [spelled])
  intro j hj1 hj2
  have hjcells : j < p.1.length := by
    rw [hwordlen, hcellslen] at hj1
    exact hj1
  obtain ⟨l, hlbit, hlval⟩ := hall j hjcells
  set cell := p.1.getD j 0 with hcelldef
  have hcelln : cell < n := by
    by_contra hcon
    rw [getD_eq_zero_of_le dom cell (by omega), Nat.zero_testBit] at hlbit
    exact absurd hlbit (by simp)
  obtain ⟨k, hk26, hkval⟩ := hsingle cell hcelln
  have hlk : k = l := by
    rw [hkval, Nat.testBit_two_pow] at hlbit
    simpa using hlbit
  subst hlk
  have hspell : (spelled dom p.1)[j] = bitLength (dom.getD cell 0) - 1 := by
    simp only [spelled, List.getElem_map]
    rw [← getD_eq_get p.1 0 j hjcells]
  rw [hspell, hkval, bitLength_two_pow]
  rw [← getD_eq_get ((D p.2).getD wid []) 26 j hj1]
  omega

/-! Bit-counting consequences used by the completeness argument. -/

theorem bitcount_eq_zero_iff (x : Nat) : bitcount x = 0 ↔ x = 0 := by
  rw [bitcount, List.length_eq_zero]
  exact iterBits_eq_nil_iff x

theorem bitcount_pos_of_ne_zero {x : Nat} (h : x ≠ 0) : 1 ≤ bitcount x := by
  by_contra hcon
  have : bitcount x = 0 := by omega
  exact h ((bitcount_eq_zero_iff x).mp this)

theorem bitsOf_two_pow (k : Nat) : bitsOf (2 ^ k) = {k} := by
  ext i
  rw [mem_bitsOf, Nat.testBit_two_pow, Finset.mem_singleton]
  simp [eq_comm]

theorem eq_two_pow_of_bitcount_one {x : Nat} (h : bitcount x = 1) : ∃ k, x = 2 ^ k := by
  rw [bitcount_eq_card] at h
  obtain ⟨k, hk⟩ := Finset.card_eq_one.mp h
  refine ⟨k, bitsOf_inj ?_⟩
  rw [hk, bitsOf_two_pow]

theorem bitcount_le_one_of_unique {x : Nat}
    (h : ∀ i j, x.testBit i = true → x.testBit j = true → i = j) : bitcount x ≤ 1 := by
  rw [bitcount_eq_card]
  refine Finset.card_le_one.mpr (fun a ha b hb => ?_)
  rw [mem_bitsOf] at ha hb
  exact h a b ha hb

theorem and_pred_two_pow (k : Nat) : 2 ^ k &&& (2 ^ k - 1) = 0 := by
  apply Nat.eq_of_testBit_eq
  intro i
  rw [Nat.testBit_and, Nat.zero_testBit, Nat.testBit_two_pow, Nat.testBit_two_pow_sub_one]
  by_cases hik : k = i
  · subst hik
    simp
  · simp [hik]

theorem two_le_bitcount_of_and_pred_ne {x : Nat} (h : x &&& (x - 1) ≠ 0) :
    2 ≤ bitcount x := by
  by_contra hcon
  have hle : bitcount x ≤ 1 := by omega
  rcases Nat.lt_or_ge (bitcount x) 1 with h1 | h1
  · have : x = 0 := (bitcount_eq_zero_iff x).mp (by omega)
    subst this
    exact h (Nat.zero_and _)
  · obtain ⟨k, rfl⟩ := eq_two_pow_of_bitcount_one (x := x) (by omega)
    exact h (and_pred_two_pow k)

theorem possibleLetters_singleton_le_one (wid : Nat) (words : List Word) (j : Nat) :
    bitcount (possibleLettersAtPos (2 ^ wid) (letterBits words j)) ≤ 1 := by
  refine bitcount_le_one_of_unique (fun l1 l2 h1 h2 => ?_)
  rw [possibleLettersAtPos_testBit] at h1 h2
  obtain ⟨-, h1⟩ := h1
  obtain ⟨-, h2⟩ := h2
  obtain ⟨i1, hi1⟩ := exists_testBit_of_ne_zero h1
  obtain ⟨i2, hi2⟩ := exists_testBit_of_ne_zero h2
  rw [Nat.testBit_and, Bool.and_eq_true, Nat.testBit_two_pow] at hi1 hi2
  obtain ⟨hw1, hb1⟩ := hi1
  obtain ⟨hw2, hb2⟩ := hi2
  have hi1e : wid = i1 := by simpa using hw1
  have hi2e : wid = i2 := by simpa using hw2
  subst hi1e
  rw [← hi2e] at hb2
  rw [letterBits_testBit] at hb1 hb2
  rw [← hb1.2, ← hb2.2]

theorem word_ext (w1 w2 : Word) (hlen : w1.length = w2.length)
    (h : ∀ j, j < w1.length → w1.getD j 26 = w2.getD j 26) : w1 = w2 := by
  apply List.ext_getElem hlen
  intro j hj1 hj2
  have := h j hj1
  rwa [getD_eq_get w1 26 j hj1, getD_eq_get w2 26 j hj2] at this

theorem bitsum_replicate (n x : Nat) : bitsum (List.replicate n x) = n * bitcount x := by
  induction n with
  | zero => simp [bitsum]
  | succ n ih =>
      rw [List.replicate_succ, bitsum_cons, ih]
      ring

/-- Core completeness of the search under the amended hypotheses: a state
compatible with a sound assignment, whose dictionary word lists are
duplicate-free and smaller than the `10^9` sentinel of
`choose_branch_path`, and whose grid is fully covered by paths, always
yields a solution given fuel exceeding the total domain bit count. -/
theorem solveAux_complete (A : Nat → Nat) (D : Nat → List Word)
    (paths : List (List Nat × Nat)) (n : Nat)
    (hA26 : ∀ i, A i < 26)
    (hD : ∀ L w, w ∈ D L → w.length = L)
    (hpaths : ∀ p ∈ paths, p.2 = p.1.length ∧ ∀ c ∈ p.1, c < n)
    (hsound : soundAssign A paths D)
    (hnodup : ∀ p ∈ paths, (D p.2).Nodup)
    (hsize : ∀ p ∈ paths, (D p.2).length < 10 ^ 9)
    (hcov : ∀ i, i < n → ∃ p ∈ paths, i ∈ p.1) :
    ∀ (fuel : Nat) (d pc : List Nat),
      listCompat A d → d.length = n → bitsum d < fuel →
      ∃ r, solveAux D paths n fuel d pc = some r := by
  intro fuel
  induction fuel with
  | zero => intro d pc _ _ hfuel; omega
  | succ fuel ih =>
      intro d pc hc hdlen hfuel
      obtain ⟨d2, pc2, hprop, hc2⟩ :=
        propagate_compat A D paths n d pc hA26 hpaths hsound hc hdlen
      obtain ⟨hfix, hsub, hl2, hl1, hca, hnz⟩ :=
        propagate_some_spec D paths n d pc d2 pc2 hprop
      obtain ⟨hpcl, hpcget⟩ := computeAllCands_spec D d2 paths pc2 hca
      simp only [solveAux]
      rw [hprop]
      dsimp only
      by_cases hsolved : solved d2 = true
      · rw [if_pos hsolved]
        exact ⟨d2, rfl⟩
      · rw [if_neg hsolved]
        obtain ⟨-, -, -, -, -, hbound, -⟩ :=
          propagatePass_spec D paths n d2 pc2 d2 pc2 false hfix
        have hex : ∃ c, c < n ∧ 2 ≤ bitcount (d2.getD c 0) := by
          have hnall : ¬ ∀ i, i < d2.length → d2.getD i 0 &&& (d2.getD i 0 - 1) = 0 :=
            fun hall => hsolved ((solved_iff d2).mpr hall)
          push_neg at hnall
          obtain ⟨i, hi, hne⟩ := hnall
          exact ⟨i, by omega, two_le_bitcount_of_and_pred_ne hne⟩
        have hqstar : ∃ q, q < paths.length ∧ 1 < bitcount (pc2.getD q 0) ∧
            bitcount (pc2.getD q 0) < 10 ^ 9 := by
          obtain ⟨c, hcn, hccnt⟩ := hex
          obtain ⟨p, hpmem, hcmem⟩ := hcov c hcn
          obtain ⟨q, hq, hqe⟩ := List.mem_iff_getElem.mp hpmem
          have hqgetD : paths.getD q ([], 0) = p := by
            rw [List.getD_eq_getElem?_getD, List.getElem?_eq_getElem hq, hqe]
            rfl
          have hsizeq : bitcount (pc2.getD q 0) < 10 ^ 9 := by
            have hsubm : submask (pc2.getD q 0) (allMask (D p.2)) := by
              rw [(hpcget q hq).1, hqgetD]
              exact cpc_submask_allMask p.1 p.2 d2 D
            have := bitcount_le_of_submask hsubm
            rw [bitcount_allMask] at this
            have := hsize p hpmem
            omega
          refine ⟨q, hq, ?_, hsizeq⟩
          by_contra hle
          have hne0 := (hpcget q hq).2
          have h1 : bitcount (pc2.getD q 0) = 1 := by
            have := bitcount_pos_of_ne_zero hne0
            omega
          obtain ⟨wid0, hwid0⟩ := eq_two_pow_of_bitcount_one (x := pc2.getD q 0) h1
          obtain ⟨j, hj, hje⟩ := List.mem_iff_getElem.mp hcmem
          have hjgetD : p.1.getD j 0 = c := by
            rw [List.getD_eq_getElem?_getD, List.getElem?_eq_getElem hj, hje]
            rfl
          have hb := hbound q hq j (by rw [hqgetD]; exact hj)
          rw [hqgetD, hjgetD, hwid0] at hb
          have hble := bitcount_le_of_submask hb
          have hple := possibleLetters_singleton_le_one wid0 (D p.2) j
          omega
        obtain ⟨hchoosenone, hchoosesome⟩ := chooseBranchPath_spec pc2
        cases hchoose : chooseBranchPath pc2 with
        | none =>
            exfalso
            obtain ⟨q, hq, hcnt1, hcnt9⟩ := hqstar
            exact hchoosenone hchoose q (by omega) ⟨hcnt1, hcnt9⟩
        | some pid =>
            dsimp only
            obtain ⟨hpidlen, hpidcnt, -, -⟩ := hchoosesome pid hchoose
            have hpidpaths : pid < paths.length := by omega
            have hp'mem : paths.getD pid ([], 0) ∈ paths :=
              getD_mem_of_lt paths pid ([], 0) hpidpaths
            have hp'wf := hpaths _ hp'mem
            obtain ⟨wA, hwAmem, hwAeq⟩ := hsound _ hp'mem
            obtain ⟨widA, hwidAlt, hwidAe⟩ := List.mem_iff_getElem.mp hwAmem
            have hwidAgetD : (D (paths.getD pid ([], 0)).2).getD widA [] =
                (paths.getD pid ([], 0)).1.map A := by
              rw [getD_eq_get _ [] widA hwidAlt, hwidAe, hwAeq]
            have hcellslt : ∀ c ∈ (paths.getD pid ([], 0)).1, c < d2.length := by
              intro c hcm
              rw [hl2]
              exact hp'wf.2 c hcm
            have hbitA : (pc2.getD pid 0).testBit widA = true := by
              rw [(hpcget pid hpidpaths).1]
              exact cpc_contains_assign _ _ d2 D A widA hwidAlt hwidAgetD hcellslt hc2
            obtain ⟨dF, hforce, hcF, hlenF, hvalsF⟩ :=
              forceCells_compat A ((D (paths.getD pid ([], 0)).2).getD widA [])
                (paths.getD pid ([], 0)).1 0 d2 hc2 hcellslt
                (fun j hj => by
                  rw [Nat.zero_add, hwidAgetD]
                  exact getD_map_lt _ A j 26 hj)
            have hc0pick : ∃ c0 ∈ (paths.getD pid ([], 0)).1,
                2 ≤ bitcount (d2.getD c0 0) := by
              by_contra hnone
              push_neg at hnone
              have hcntle : bitcount (pc2.getD pid 0) ≤ 1 := by
                refine bitcount_le_one_of_unique (fun w1 w2 hb1 hb2 => ?_)
                rw [(hpcget pid hpidpaths).1, cpc_testBit] at hb1 hb2
                obtain ⟨-, hw1len, hall1⟩ := hb1
                obtain ⟨-, hw2len, hall2⟩ := hb2
                have hweq : (D (paths.getD pid ([], 0)).2).getD w1 [] =
                    (D (paths.getD pid ([], 0)).2).getD w2 [] := by
                  have hlw1 : ((D (paths.getD pid ([], 0)).2).getD w1 []).length =
                      (paths.getD pid ([], 0)).2 :=
                    hD _ _ (getD_mem_of_lt _ w1 [] hw1len)
                  have hlw2 : ((D (paths.getD pid ([], 0)).2).getD w2 []).length =
                      (paths.getD pid ([], 0)).2 :=
                    hD _ _ (getD_mem_of_lt _ w2 [] hw2len)
                  refine word_ext _ _ (by omega) (fun j hj => ?_)
                  have hjcells : j < (paths.getD pid ([], 0)).1.length := by
                    rw [hlw1] at hj
                    omega
                  obtain ⟨l1, hbit1, he1⟩ := hall1 j hjcells
                  obtain ⟨l2, hbit2, he2⟩ := hall2 j hjcells
                  have hcellmem : (paths.getD pid ([], 0)).1.getD j 0 ∈
                      (paths.getD pid ([], 0)).1 := getD_mem_of_lt _ j 0 hjcells
                  have hcelln : (paths.getD pid ([], 0)).1.getD j 0 < n :=
                    hp'wf.2 _ hcellmem
                  have hcne0 := (hnz _ hcelln).1
                  have hcle := hnone _ hcellmem
                  have hcone : bitcount (d2.getD ((paths.getD pid ([], 0)).1.getD j 0) 0)
                      = 1 := by
                    have := bitcount_pos_of_ne_zero hcne0
                    omega
                  obtain ⟨k, hk⟩ := eq_two_pow_of_bitcount_one
                    (x := d2.getD ((paths.getD pid ([], 0)).1.getD j 0) 0) hcone
                  rw [hk, Nat.testBit_two_pow] at hbit1 hbit2
                  have hl1k : k = l1 := by simpa using hbit1
                  have hl2k : k = l2 := by simpa using hbit2
                  rw [he1, he2, ← hl1k, ← hl2k]
                have hnd := hnodup _ hp'mem
                have hgetel : (D (paths.getD pid ([], 0)).2)[w1] =
                    (D (paths.getD pid ([], 0)).2)[w2] := by
                  rw [← getD_eq_get _ [] w1 hw1len, ← getD_eq_get _ [] w2 hw2len]
                  exact hweq
                exact hnd.getElem_inj_iff.mp hgetel
              omega
            obtain ⟨c0, hc0mem, hc0cnt⟩ := hc0pick
            have hdFne : dF ≠ d2 := by
              intro hcon
              have h1 : dF.getD c0 0 = 1 <<< A c0 := hvalsF c0 hc0mem
              rw [hcon] at h1
              rw [h1, Nat.shiftLeft_eq, one_mul, bitcount_two_pow] at hc0cnt
              omega
            obtain ⟨-, hsubF, -⟩ := forceCells_shrink _ _ _ _ _ hforce
            have hbs : bitsum dF < bitsum d2 :=
              bitsum_lt_of_pointwise_ne dF d2 (by omega) hsubF hdFne
            have hbs2 : bitsum d2 ≤ bitsum d :=
              bitsum_le_of_pointwise d2 d (by omega) hsub
            obtain ⟨r, hr⟩ := ih dF (pc2.set pid (1 <<< widA)) hcF (by omega) (by omega)
            have hmem : widA ∈ iterBits (pc2.getD pid 0) :=
              (mem_iterBits _ widA).mpr hbitA
            obtain ⟨r', hr'⟩ := tryCands_success_of_mem (solveAux D paths n fuel)
              (D (paths.getD pid ([], 0)).2) (paths.getD pid ([], 0)).1 pid d2 pc2
              (iterBits (pc2.getD pid 0)) widA dF r hmem hforce hr
            exact ⟨r', hr'⟩

/-- Concrete dictionary with the single word `AB` at length 2. -/
def dictAB : Nat → List Word
  | 2 => [[0, 1]]
  | _ => []

/-- Concrete dictionary with the single word `A` at length 1. -/
def dictA : Nat → List Word
  | 1 => [[0]]
  | _ => []

/-- Concrete dictionary listing the word `A` twice at length 1 (the loader
does not deduplicate, so this is a reachable word table). -/
def dictAA : Nat → List Word
  | 1 => [[0], [0]]
  | _ => []

/-- Concrete dictionary with one word of length 1 whose single character
has letter code 30 (a non-ASCII letter that uppercases outside `A`–`Z`,
e.g. a Greek letter), as produced by `load_dictionary`'s `isalpha` filter. -/
def dictBad : Nat → List Word
  | 1 => [[30]]
  | _ => []

theorem dictA_wf : ∀ (L : Nat), ∀ w ∈ dictA L, w.length = L := by
  intro L w h
  rcases L with _ | _ | L
  · simp [dictA] at h
  · simp [dictA] at h
    subst h
    rfl
  · simp [dictA] at h

theorem dictAB_wf : ∀ (L : Nat), ∀ w ∈ dictAB L, w.length = L := by
  intro L w h
  rcases L with _ | _ | _ | L
  · simp [dictAB] at h
  · simp [dictAB] at h
  · simp [dictAB] at h
    subst h
    rfl
  · simp [dictAB] at h

theorem dictAA_wf : ∀ (L : Nat), ∀ w ∈ dictAA L, w.length = L := by
  intro L w h
  rcases L with _ | _ | L
  · simp [dictAA] at h
  · simp [dictAA] at h
    rcases h with rfl | rfl <;> rfl
  · simp [dictAA] at h

theorem bitcount_ALL : bitcount ALL = 26 := by
  have h : ALL = 2 ^ 26 - 1 := by decide
  rw [h, bitcount_two_pow_sub_one]

theorem maskToLetter_two_pow (k : Nat) (h : k < 26) :
    maskToLetter (2 ^ k) = Char.ofNat (65 + k) ∧
    65 ≤ (maskToLetter (2 ^ k)).toNat ∧ (maskToLetter (2 ^ k)).toNat ≤ 90 := by
  have he : maskToLetter (2 ^ k) = Char.ofNat (65 + k) := by
    rw [maskToLetter, bitLength_two_pow]
    norm_num
  refine ⟨he, ?_⟩
  rw [he]
  interval_cases k <;> exact ⟨by decide, by decide⟩

example : iterBits 0 = [] := by decide
example : iterBits 11 = [0, 1, 3] := by decide
example : bitcount 11 = 3 := by decide
example : ALL = 67108863 := by decide
example : letterBits [[0, 1]] 0 0 = 1 := by decide
example : letterBits [[0, 1]] 1 1 = 1 := by decide
example : letterBits [[0], [0]] 0 0 = 3 := by decide
example : allMask [[0], [0]] = 3 := by decide
example : computePathCandidates [0, 1] 2 [ALL, ALL] dictAB = 1 := by decide
example : computePathCandidates [0] 1 [1] dictAA = 3 := by decide
example : possibleLettersAtPos 1 (letterBits [[0, 1]] 0) = 1 := by decide
example : possibleLettersAtPos 1 (letterBits [[0, 1]] 1) = 2 := by decide
example :
    propagatePass dictAB [([0, 1], 2)] 2 [ALL, ALL] [1] =
      some ([1, 2], [1], true) := by decide
example :
    propagate dictAB [([0, 1], 2)] 2 [ALL, ALL] [1] = some ([1, 2], [1]) := by decide
example : solved [1, 2] = true := by decide
example : solved [1, 3] = false := by decide
example :
    solveAux dictAB [([0, 1], 2)] 2 1 [ALL, ALL] [1] = some [1, 2] := by decide
example : chooseBranchPath [1, 6, 3] = some 1 := by decide
example : chooseBranchPath [1, 0] = none := by decide
example : maskToLetter 1 = 'A' := by decide
example : maskToLetter 2 = 'B' := by decide

/-! The claims. -/

/-- C1: Soundness of the solver — for every dictionary (words grouped by
length, each word of its group's length) and every list of paths (each
stored with its true length), if `solve` returns a non-`None` domains
list, then every cell's domain in that list has exactly one letter (a
one-bit bitset `2^k` with `k < 26`), and for every path the letters of its
cells read in path order spell a string equal to some word of the
dictionary's word list of that path's length. -/
theorem claim_C1 (D : Nat → List Word) (paths : List (List Nat × Nat))
    (n fuel : Nat) (d pc dom : List Nat)
    (hD : ∀ L, ∀ w ∈ D L, w.length = L)
    (hp : ∀ p ∈ paths, p.2 = p.1.length)
    (h : solveAux D paths n fuel d pc = some dom) :
    dom.length = n ∧
    (∀ i, i < n → ∃ k, k < 26 ∧ dom.getD i 0 = 2 ^ k) ∧
    (∀ p ∈ paths, ∃ w ∈ D p.2, w = spelled dom p.1) :=
  solveAux_full_sound D paths n fuel d pc dom hD hp h

/-- Witness for C1 at a concrete solvable instance: one path over a
two-cell grid and the dictionary `{AB}`. -/
theorem claim_C1_witness :
    ([1, 2] : List Nat).length = 2 ∧
    (∀ i, i < 2 → ∃ k, k < 26 ∧ ([1, 2] : List Nat).getD i 0 = 2 ^ k) ∧
    (∀ p ∈ [([0, 1], 2)], ∃ w ∈ dictAB p.2, w = spelled [1, 2] p.1) :=
  claim_C1 dictAB [([0, 1], 2)] 2 1 [ALL, ALL] [1] [1, 2] dictAB_wf
    (by decide) (by decide)

/-- C2 counterexample: a grid inferred as 1×2 from a single path through
cell `(0,1)` leaves cell 0 uncovered.  The assignment `A = 'A' everywhere`
satisfies Soundness (the path spells `A`, which is in the dictionary) and
Consistency, yet `solve`, started from full domains and all-words
candidate sets, returns `None` for every recursion budget: after
propagation the board is not fully singleton (cell 0 still has all 26
letters) but no path has more than one candidate, so
`choose_branch_path` returns `None` and `solve` gives up. -/
theorem claim_C2_counterexample :
    soundAssign (fun _ => 0) [([1], 1)] dictA ∧
    (∀ fuel, solveAux dictA [([1], 1)] 2 fuel (List.replicate 2 ALL)
      ([([1], 1)].map (fun p => allMaskOf dictA p.2)) = none) := by
  constructor
  · intro p hp
    simp only [List.mem_singleton] at hp
    subst hp
    exact ⟨[0], by simp [dictA], by decide⟩
  · intro fuel
    cases fuel with
    | zero => rfl
    | succ f => rfl

/-- C2 amended: Completeness of the search holds under the additional
hypotheses that every cell of the grid is covered by at least one path,
every word list of the dictionary is duplicate-free, every word list of a
path's length has fewer than `10^9` words (the sentinel of
`choose_branch_path`), and the recursion budget exceeds `26·n`: if an
assignment of one letter to every cell satisfies Soundness (and hence
Consistency, being a function of the cell), then `solve`, started from
full domains and all-words candidate sets, returns some non-`None`
assignment rather than `None`. -/
theorem claim_C2_amended (A : Nat → Nat) (D : Nat → List Word)
    (paths : List (List Nat × Nat)) (n fuel : Nat)
    (hA26 : ∀ i, A i < 26)
    (hD : ∀ L, ∀ w ∈ D L, w.length = L)
    (hpaths : ∀ p ∈ paths, p.2 = p.1.length ∧ ∀ c ∈ p.1, c < n)
    (hsound : soundAssign A paths D)
    (hnodup : ∀ p ∈ paths, (D p.2).Nodup)
    (hsize : ∀ p ∈ paths, (D p.2).length < 10 ^ 9)
    (hcov : ∀ i, i < n → ∃ p ∈ paths, i ∈ p.1)
    (hfuel : 26 * n < fuel) :
    ∃ r, solveAux D paths n fuel (List.replicate n ALL)
      (paths.map (fun p => allMaskOf D p.2)) = some r := by
  refine solveAux_complete A D paths n hA26 hD hpaths hsound hnodup hsize hcov fuel
    (List.replicate n ALL) (paths.map (fun p => allMaskOf D p.2)) ?_ ?_ ?_
  · intro i hi
    rw [List.length_replicate] at hi
    rw [getD_replicate n ALL i hi, testBit_ALL]
    simpa using hA26 i
  · exact List.length_replicate n ALL
  · rw [bitsum_replicate, bitcount_ALL]
    omega

/-- Witness for the amended C2 at a concrete instance: a single path
covering the single cell of a 1-cell grid with dictionary `{A}`. -/
theorem claim_C2_amended_witness :
    ∃ r, solveAux dictA [([0], 1)] 1 27 (List.replicate 1 ALL)
      ([([0], 1)].map (fun p => allMaskOf dictA p.2)) = some r :=
  claim_C2_amended (fun _ => 0) dictA [([0], 1)] 1 27 (by intro i; norm_num)
    dictA_wf (by decide)
    (by
      intro p hp
      simp only [List.mem_singleton] at hp
      subst hp
      exact ⟨[0], by simp [dictA], by decide⟩)
    (by
      intro p hp
      simp only [List.mem_singleton] at hp
      subst hp
      simp [dictA])
    (by
      intro p hp
      simp only [List.mem_singleton] at hp
      subst hp
      norm_num [dictA])
    (by decide) (by norm_num)

/-- C3 counterexample: with the dictionary listing the word `A` twice, a
state whose path candidate bitset holds only word ID 0 regains the bit of
word ID 1 across one propagation pass, because `compute_path_candidates`
recomputes candidates starting from the full all-words mask rather than
from the path's previous candidate set: the pass maps `path_cands = [1]`
to `[3]`, gaining bit 1. -/
theorem claim_C3_counterexample :
    propagatePass dictAA [([0], 1)] 1 [1] [1] = some ([1], [3], true) ∧
    Nat.testBit 3 1 = true ∧ Nat.testBit 1 1 = false := by
  refine ⟨by decide, by decide, by decide⟩

/-- C3 amended: across one pass of the propagate loop no cell domain
bitset gains a bit (each is intersected with its previous value), and each
path candidate bitset is recomputed from the full all-words mask
intersected per position against the current domains — so it gains no bit
relative to its previous value only under the additional hypothesis that
the previous value contained the candidates recomputed from the current
domains (as holds in every pass after the first, the previous value having
been computed from weakly larger domains). -/
theorem claim_C3_amended (D : Nat → List Word) (paths : List (List Nat × Nat))
    (n : Nat) (d pc d2 pc2 : List Nat) (ch : Bool)
    (h : propagatePass D paths n d pc = some (d2, pc2, ch)) :
    (∀ i, submask (d2.getD i 0) (d.getD i 0)) ∧
    (∀ pid, pid < paths.length → pc2.getD pid 0 =
      computePathCandidates (paths.getD pid ([], 0)).1 (paths.getD pid ([], 0)).2 d D) ∧
    ((∀ pid, pid < paths.length →
        submask (computePathCandidates (paths.getD pid ([], 0)).1
          (paths.getD pid ([], 0)).2 d D) (pc.getD pid 0)) →
      ∀ pid, submask (pc2.getD pid 0) (pc.getD pid 0)) := by
  obtain ⟨hdlen, hd2len, hca, hdsub, -, -, -⟩ :=
    propagatePass_spec D paths n d pc d2 pc2 ch h
  obtain ⟨hpcl, hpcget⟩ := computeAllCands_spec D d paths pc2 hca
  refine ⟨hdsub, fun pid hpid => (hpcget pid hpid).1, fun hprev pid => ?_⟩
  by_cases hpid : pid < paths.length
  · rw [(hpcget pid hpid).1]
    exact hprev pid hpid
  · rw [getD_eq_zero_of_le pc2 pid (by omega)]
    exact submask_zero _

/-- Witness for the amended C3: the same duplicate-word instance as the
counterexample but entered with the full candidate set, where the pass is
a no-op and indeed gains no bit. -/
theorem claim_C3_amended_witness :
    (∀ i, submask (([1] : List Nat).getD i 0) (([1] : List Nat).getD i 0)) ∧
    (∀ pid, pid < ([([0], 1)] : List (List Nat × Nat)).length →
      ([3] : List Nat).getD pid 0 =
        computePathCandidates ([([0], 1)].getD pid ([], 0)).1
          ([([0], 1)].getD pid ([], 0)).2 [1] dictAA) ∧
    ((∀ pid, pid < ([([0], 1)] : List (List Nat × Nat)).length →
        submask (computePathCandidates ([([0], 1)].getD pid ([], 0)).1
          ([([0], 1)].getD pid ([], 0)).2 [1] dictAA) (([3] : List Nat).getD pid 0)) →
      ∀ pid, submask (([3] : List Nat).getD pid 0) (([3] : List Nat).getD pid 0)) :=
  claim_C3_amended dictAA [([0], 1)] 1 [1] [3] [1] [3] false (by decide)

/-- C4: never a partially-resolved output — for well-formed inputs the
program's result is either an explicit `"No solution found."` signal or a
fully-resolved grid: whenever `solve` returns a non-`None` domains list,
every entry is a nonzero bitset with exactly one bit set, and
`mask_to_letter` maps every cell to a single uppercase letter `A`–`Z`
(codepoints 65–90) in the printed row-major grid; when `solve` returns
`None` the only output is the no-solution signal with no grid. -/
theorem claim_C4 (D : Nat → List Word) (paths : List (List Nat × Nat))
    (nrows ncols fuel : Nat)
    (hD : ∀ L, ∀ w ∈ D L, w.length = L)
    (hp : ∀ p ∈ paths, p.2 = p.1.length) :
    (solveAux D paths (nrows * ncols) fuel (List.replicate (nrows * ncols) ALL)
        (paths.map (fun p => allMaskOf D p.2)) = none ∧
      mainOutput D paths nrows ncols fuel = Sum.inl "No solution found.") ∨
    (∃ sol, solveAux D paths (nrows * ncols) fuel
        (List.replicate (nrows * ncols) ALL)
        (paths.map (fun p => allMaskOf D p.2)) = some sol ∧
      (∀ i, i < nrows * ncols → ∃ k, k < 26 ∧ sol.getD i 0 = 2 ^ k) ∧
      ∃ g, mainOutput D paths nrows ncols fuel = Sum.inr g ∧
        ∀ row ∈ g, ∀ ch ∈ row, 65 ≤ ch.toNat ∧ ch.toNat ≤ 90) := by
  cases hsol : solveAux D paths (nrows * ncols) fuel
      (List.replicate (nrows * ncols) ALL)
      (paths.map (fun p => allMaskOf D p.2)) with
  | none =>
      refine Or.inl ⟨rfl, ?_⟩
      rw [mainOutput]
      rw [hsol]
  | some sol =>
      obtain ⟨hlen, hsingle, -⟩ :=
        solveAux_full_sound D paths (nrows * ncols) fuel _ _ sol hD hp hsol
      refine Or.inr ⟨sol, rfl, hsingle, ?_⟩
      refine ⟨(List.range nrows).map (fun r =>
        (List.range ncols).map (fun c => maskToLetter (sol.getD (r * ncols + c) 0))), ?_, ?_⟩
      · rw [mainOutput]
        rw [hsol]
      · intro row hrow ch hch
        simp only [List.mem_map, List.mem_range] at hrow
        obtain ⟨r, hr, rfl⟩ := hrow
        simp only [List.mem_map, List.mem_range] at hch
        obtain ⟨c, hcc, rfl⟩ := hch
        have hidx : r * ncols + c < nrows * ncols := by
          have h1 : r + 1 ≤ nrows := hr
          calc r * ncols + c < r * ncols + ncols := by omega
            _ = (r + 1) * ncols := by ring
            _ ≤ nrows * ncols := Nat.mul_le_mul_right ncols h1
        obtain ⟨k, hk26, hkval⟩ := hsingle _ hidx
        rw [hkval]
        exact (maskToLetter_two_pow k hk26).2

/-- Witness for C4 at a concrete solvable instance: the 1×2 grid with one
path and dictionary `{AB}` prints the fully resolved grid `A B`. -/
theorem claim_C4_witness :
    (solveAux dictAB [([0, 1], 2)] (1 * 2) 1 (List.replicate (1 * 2) ALL)
        ([([0, 1], 2)].map (fun p => allMaskOf dictAB p.2)) = none ∧
      mainOutput dictAB [([0, 1], 2)] 1 2 1 = Sum.inl "No solution found.") ∨
    (∃ sol, solveAux dictAB [([0, 1], 2)] (1 * 2) 1 (List.replicate (1 * 2) ALL)
        ([([0, 1], 2)].map (fun p => allMaskOf dictAB p.2)) = some sol ∧
      (∀ i, i < 1 * 2 → ∃ k, k < 26 ∧ sol.getD i 0 = 2 ^ k) ∧
      ∃ g, mainOutput dictAB [([0, 1], 2)] 1 2 1 = Sum.inr g ∧
        ∀ row ∈ g, ∀ ch ∈ row, 65 ≤ ch.toNat ∧ ch.toNat ≤ 90) :=
  claim_C4 dictAB [([0, 1], 2)] 1 2 1 dictAB_wf (by decide)

/-- C5: the claim states that a path referencing a cell outside the grid
bounds (for example a negative coordinate) is rejected by the loader
before the solver runs.  The code has no such check: `load_paths` accepts
the path `[(0,0), (-1,1)]` unchanged (its maxima ignore negative
coordinates, inferring a 1×2 grid), `main` linearizes `(-1,1)` to the
cell ID `-1`, and Python list indexing silently aliases index `-1` to the
last cell (index 1) instead of raising an error — so the solver runs on a
silently wrong cell and can print an incorrect board. -/
theorem claim_C5 :
    loadPaths [[(0, 0), (-1, 1)]] = ([([(0, 0), (-1, 1)], 2)], 1, 2, 2) ∧
    linearize 2 [(0, 0), (-1, 1)] = [0, -1] ∧
    pyIdx 2 (-1) = some 1 := by
  refine ⟨by decide, by decide, by decide⟩

/-- C6: termination of the propagation fixpoint loop — for every finite
dictionary index, path list and initial domain/candidate state there is a
finite number of passes after which `propagate`'s loop has either reached
a pass with no change or returned failure (the fuelled loop yields a
definite answer; `propFuel` passes always suffice). -/
theorem claim_C6 (D : Nat → List Word) (paths : List (List Nat × Nat))
    (n : Nat) (d pc : List Nat) :
    ∃ fuel, (propagateAux D paths n fuel d pc).isSome = true := by
  refine ⟨propFuel D paths d, ?_⟩
  cases haux : propagateAux D paths n (propFuel D paths d) d pc with
  | none => exact absurd haux (propagateAux_propFuel_ne_none D paths n d pc)
  | some y => rfl

/-- C7: failed branches leave the parent untouched — in `solve`'s branch
loop, when a candidate word's branch fails (either skipped because a
forced letter conflicts with the cell's current domain, or because the
recursive call returns `None`), the loop proceeds to the remaining
candidates with the calling node's domains list `d` and path candidate
list `pc` exactly as they were before the branch was tried: every branch
works on fresh copies (`d2`, `pc2`), so the parent state reappears
bit-for-bit in the continuation. -/
theorem claim_C7 (rec : List Nat → List Nat → Option (List Nat))
    (words : List Word) (cells : List Nat) (pid : Nat) (d pc : List Nat)
    (wid : Nat) (rest : List Nat)
    (h : forceCells (words.getD wid []) cells 0 d = none ∨
      ∀ d2, forceCells (words.getD wid []) cells 0 d = some d2 →
        rec d2 (pc.set pid (1 <<< wid)) = none) :
    tryCands rec words cells pid d pc (wid :: rest) =
      tryCands rec words cells pid d pc rest :=
  tryCands_skip rec words cells pid d pc wid rest h

/-- Witness for C7: a branch that is skipped by an immediate conflict (the
word `B` forced onto a cell whose domain is `{A}`), after which the loop
continues on the untouched parent state. -/
theorem claim_C7_witness :
    tryCands (fun _ _ => none) [[1]] [0] 0 [1] [1] [0, 3] =
      tryCands (fun _ _ => none) [[1]] [0] 0 [1] [1] [3] :=
  claim_C7 (fun _ _ => none) [[1]] [0] 0 [1] [1] 0 [3] (Or.inl (by decide))

/-- C8: deterministic branching order — (1) whenever `choose_branch_path`
selects a path, that path's candidate bitset has more than one bit and the
fewest bits among all such paths, ties broken in favour of the earliest
path index; (2) `iter_bits` enumerates candidate word IDs in strictly
increasing order and enumerates exactly the bits of the set; (3) the
branch loop returns the result of the first branch that succeeds. -/
theorem claim_C8 :
    (∀ (pcs : List Nat) (pid : Nat), chooseBranchPath pcs = some pid →
      pid < pcs.length ∧ 1 < bitcount (pcs.getD pid 0) ∧
      ∀ q, q < pcs.length → 1 < bitcount (pcs.getD q 0) →
        bitcount (pcs.getD pid 0) ≤ bitcount (pcs.getD q 0) ∧
        (bitcount (pcs.getD q 0) = bitcount (pcs.getD pid 0) → pid ≤ q)) ∧
    (∀ x : Nat, List.Sorted (· < ·) (iterBits x) ∧
      ∀ i, i ∈ iterBits x ↔ x.testBit i = true) ∧
    (∀ (rec : List Nat → List Nat → Option (List Nat)) (words : List Word)
        (cells : List Nat) (pid : Nat) (d pc : List Nat) (wid : Nat)
        (rest : List Nat) (d2 r : List Nat),
      forceCells (words.getD wid []) cells 0 d = some d2 →
      rec d2 (pc.set pid (1 <<< wid)) = some r →
      tryCands rec words cells pid d pc (wid :: rest) = some r) := by
  refine ⟨?_, ?_, ?_⟩
  · intro pcs pid h
    obtain ⟨h1, h2, -, h4⟩ := (chooseBranchPath_spec pcs).2 pid h
    exact ⟨h1, h2, h4⟩
  · intro x
    exact ⟨iterBits_sorted x, fun i => mem_iterBits x i⟩
  · intro rec words cells pid d pc wid rest d2 r hforce hrec
    exact tryCands_first_success rec words cells pid d pc wid rest d2 r hforce hrec

/-- Witness for C8 at concrete inputs: the minimum-candidates path is
selected among `[1, 6, 3]` (counts 1, 2, 2: path 1 wins the tie with path
2), `iter_bits 11` is the increasing enumeration of `{0, 1, 3}`, and a
first succeeding branch's result is returned. -/
theorem claim_C8_witness :
    (1 < bitcount (([1, 6, 3] : List Nat).getD 1 0) ∧
      (1 : Nat) < ([1, 6, 3] : List Nat).length) ∧
    (3 ∈ iterBits 11 ↔ Nat.testBit 11 3 = true) ∧
    tryCands (fun x _ => some x) [[0]] [0] 0 [1] [1] [0, 5] = some [1] := by
  refine ⟨⟨(claim_C8.1 [1, 6, 3] 1 (by decide)).2.1, ?_⟩, claim_C8.2.1 11 |>.2 3, ?_⟩
  · exact (claim_C8.1 [1, 6, 3] 1 (by decide)).1
  · exact claim_C8.2.2 (fun x _ => some x) [[0]] [0] 0 [1] [1] 0 [5] [1] [1]
      (by decide) rfl

theorem count_filterMap_norm (w : List Char) :
    ∀ lines : List (List Char),
      (lines.filterMap normLine).count w =
        lines.countP (fun l => normLine l = some w) := by
  intro lines
  induction lines with
  | nil => simp
  | cons a rest ih =>
      cases h : normLine a with
      | none =>
          rw [List.filterMap_cons_none h, List.countP_cons, ih]
          simp [h]
      | some b =>
          rw [List.filterMap_cons_some h, List.count_cons, List.countP_cons, ih]
          by_cases hbw : b = w
          · subst hbw
            simp [h]
          · simp [h, hbw, Ne.symm hbw]

/-- C9 (implicit): the dictionary loader does not deduplicate — for every
dictionary file, the number of copies of a word `w` (of an in-range
length) in its length's word list equals the number of lines that
normalize to `w`, so a line occurring `k` times contributes `k` entries;
and every word ID of a word list, duplicates included, has its own bit in
the all-words mask and is enumerated separately by `iter_bits` as a
branch candidate. -/
theorem claim_C9 (lines : List (List Char)) (maxLen L : Nat) (w : List Char)
    (hw : w.length = L) (h1 : 1 ≤ L) (h2 : L ≤ maxLen) :
    ((loadDictionary lines maxLen) L).count w =
      lines.countP (fun l => normLine l = some w) ∧
    (∀ words : List Word, ∀ i, i < words.length →
      (allMask words).testBit i = true ∧ i ∈ iterBits (allMask words)) := by
  constructor
  · rw [loadDictionary]
    exact (List.count_filter (by
      simp only [decide_eq_true_eq]
      exact ⟨hw, by omega, by omega⟩)).trans (count_filterMap_norm w lines)
  · intro words i hi
    have hbit : (allMask words).testBit i = true := by
      rw [allMask, Nat.shiftLeft_eq, one_mul, Nat.testBit_two_pow_sub_one]
      simpa using hi
    exact ⟨hbit, (mem_iterBits _ i).mpr hbit⟩

/-- Witness for C9: a file whose lines normalize to `A`, are dropped as
non-alphabetic, and normalize to `A` again yields the word list `[A, A]`
with two word IDs, both enumerated. -/
theorem claim_C9_witness :
    ((loadDictionary [['a'], ['x', '1'], ['A']] 5) 1).count ['A'] =
      ([['a'], ['x', '1'], ['A']] : List (List Char)).countP
        (fun l => normLine l = some ['A']) ∧
    ((loadDictionary [['a'], ['x', '1'], ['A']] 5) 1).count ['A'] = 2 ∧
    (allMask [[0], [0]]).testBit 1 = true ∧ 1 ∈ iterBits (allMask [[0], [0]]) := by
  have h := claim_C9 [['a'], ['x', '1'], ['A']] 5 1 ['A'] (by decide) (by decide)
    (by decide)
  exact ⟨h.1, by decide, h.2 [[0], [0]] 1 (by decide)⟩

/-- C10 (implicit): a dictionary word that passes the `isalpha` filter
but, after uppercasing, contains a character outside `A`–`Z` (letter code
`≥ 26`) at some position has its word ID in no letter bitset of that
position, so `compute_path_candidates` always excludes it from every
candidate set of a path consulting that position (cell domains being
subsets of the 26-letter mask, as maintained by the program), and such a
word never contributes a letter to a returned board. -/
theorem claim_C10 (D : Nat → List Word) (L : Nat) (cells domains : List Nat)
    (pos wid : Nat)
    (hw : wid < (D L).length)
    (hbad : 26 ≤ ((D L).getD wid []).getD pos 26)
    (hpos : pos < cells.length)
    (hdom : ∀ c ∈ cells, domains.getD c 0 < 2 ^ 26) :
    (∀ letter, letter < 26 → (letterBits (D L) pos letter).testBit wid = false) ∧
    (computePathCandidates cells L domains D).testBit wid = false := by
  constructor
  · intro letter hl
    by_contra hcon
    have htrue : (letterBits (D L) pos letter).testBit wid = true := by
      revert hcon
      cases (letterBits (D L) pos letter).testBit wid <;> simp
    rw [letterBits_testBit] at htrue
    omega
  · by_contra hcon
    have htrue : (computePathCandidates cells L domains D).testBit wid = true := by
      revert hcon
      cases (computePathCandidates cells L domains D).testBit wid <;> simp
    rw [cpc_testBit] at htrue
    obtain ⟨-, -, hall⟩ := htrue
    obtain ⟨l, hlbit, hlval⟩ := hall pos hpos
    have hcellmem : cells.getD pos 0 ∈ cells := getD_mem_of_lt cells pos 0 hpos
    have hlt : domains.getD (cells.getD pos 0) 0 < 2 ^ 26 := hdom _ hcellmem
    have hl26 : l < 26 := by
      by_contra hcon2
      have hge : 2 ^ 26 ≤ 2 ^ l := Nat.pow_le_pow_right (by norm_num) (by omega)
      have := Nat.testBit_implies_ge hlbit
      omega
    omega

/-- Witness for C10: a one-word dictionary whose word has the out-of-range
letter code 30; the word's bit is absent from every letter bitset and
from the candidate set of the path through cell 0. -/
theorem claim_C10_witness :
    (∀ letter, letter < 26 →
      (letterBits (dictBad 1) 0 letter).testBit 0 = false) ∧
    (computePathCandidates [0] 1 [ALL] dictBad).testBit 0 = false :=
  claim_C10 dictBad 1 [0] [ALL] 0 0 (by decide) (by decide) (by decide)
    (by decide)

end Boggle
